import Mathlib

/-!
Verification of the LZW GIF encoder in `src/ext/lzw.c` (repository gifenc).

The C code is shallowly embedded: machine integers become `Nat` (with explicit
`% 256` where a `uint8_t` cast truncates), the mutable arrays of the encoder
context become function-valued fields that are updated pointwise, the fallible
encoder returns `Except Unit` mirroring the C `int` return convention
(`0` = ok, nonzero = error), and the output buffers become lists built in
emission order.
-/

namespace Gifenc

/-- `#define MAX_CODE_LEN 12` -/
def MAX_CODE_LEN : Nat := 12

/-- `#define MAX_DICT_LEN (1uL << MAX_CODE_LEN)` -/
def MAX_DICT_LEN : Nat := 2 ^ MAX_CODE_LEN

/-- `#define BLOCK_SIZE 0xFF` -/
def BLOCK_SIZE : Nat := 255

/-- Pointwise update of a one-argument table (models a C array store). -/
def upd (f : Nat → Nat) (i v : Nat) : Nat → Nat :=
  fun j => if j = i then v else f j

/-- Pointwise update of a two-argument table (models a store into a 2-D C array). -/
def upd2 (f : Nat → Nat → Nat) (i j v : Nat) : Nat → Nat → Nat :=
  fun a b => if a = i ∧ b = j then v else f a b

@[simp] theorem upd_eq (f : Nat → Nat) (i v : Nat) : upd f i v i = v := by
  simp [upd]

@[simp] theorem upd2_eq (f : Nat → Nat → Nat) (i j v : Nat) : upd2 f i j v i j = v := by
  simp [upd2]

theorem upd_ne (f : Nat → Nat) (i v j : Nat) (h : j ≠ i) : upd f i v j = f j := by
  simp [upd, h]

theorem upd2_ne (f : Nat → Nat → Nat) (i j v a b : Nat) (h : ¬(a = i ∧ b = j)) :
    upd2 f i j v a b = f a b := by
  simp only [upd2, if_neg h]

/-- The loop body of `calcNextPower2Ex`: advance `p` while `n > 2^p`.
The fuel argument makes the recursion structural; `calcNextPower2Ex` supplies
fuel `n`, which is enough for the loop to reach its exit condition. -/
def nextPow2Go (n : Nat) : Nat → Nat → Nat
  | 0, p => p
  | fuel + 1, p => if n > 2 ^ p then nextPow2Go n fuel (p + 1) else p

/-- `calcNextPower2Ex`: smallest `p` with `n ≤ 2^p`
(`for (nextPow2 = 0; n > (1uL << nextPow2); ++nextPow2);`). -/
def calcNextPower2Ex (n : Nat) : Nat := nextPow2Go n n 0

/-- `calcInitCodeLen`: `index = calcNextPower2Ex(numEntries); return (index < 3) ? 3 : index + 1;` -/
def calcInitCodeLen (numEntries : Nat) : Nat :=
  let index := calcNextPower2Ex numEntries
  if index < 3 then 3 else index + 1

/-- The mutable part of the C `LZWGenState`.
`pTreeList` stores three `uint16` per node (`node*3` = overflow-map slot,
`node*3+1` = inline child symbol, `node*3+2` = inline child code); it is split
here into the three per-node tables `pTreeListMap`, `pTreeListSym`,
`pTreeListChild`.  `pLZWData`/`LZWPos` become the list `pLZWData` of emitted
codes in emission order. -/
structure LZWGenState where
  pTreeInit : Nat → Nat → Nat
  pTreeListMap : Nat → Nat
  pTreeListSym : Nat → Nat
  pTreeListChild : Nat → Nat
  pTreeMap : Nat → Nat → Nat
  pLZWData : List Nat
  dictPos : Nat
  mapPos : Nat

/-- `resetDict`: reset next-assignable code and overflow-pool cursor, emit the
Clear Code (`initDictLen`), zero the dense table and the node list
(`pTreeMap` is not cleared by the C code either; stale rows are overwritten on
allocation before being read). -/
def resetDict (st : LZWGenState) (initDictLen : Nat) : LZWGenState :=
  { st with
    dictPos := initDictLen + 2
    mapPos := 1
    pLZWData := st.pLZWData ++ [initDictLen]
    pTreeInit := fun _ _ => 0
    pTreeListMap := fun _ => 0
    pTreeListSym := fun _ => 0
    pTreeListChild := fun _ => 0 }

/-- `add_child`: record `(parentIndex, nextColor) ↦ LZWIndex` in the sparse
region and advance `dictPos`.  First child goes inline; the second child
allocates an overflow-map row (fully overwritten, then one entry set); later
children are stored in the allocated row. -/
def add_child (st : LZWGenState) (parentIndex LZWIndex nextColor : Nat) : LZWGenState :=
  let mapPos := st.pTreeListMap parentIndex
  if mapPos = 0 then
    if st.pTreeListChild parentIndex ≠ 0 then
      let m := st.mapPos
      { st with
        pTreeMap := fun r s =>
          if r = m - 1 then (if s = nextColor then LZWIndex else 0) else st.pTreeMap r s
        pTreeListMap := upd st.pTreeListMap parentIndex m
        mapPos := st.mapPos + 1
        dictPos := st.dictPos + 1 }
    else
      { st with
        pTreeListSym := upd st.pTreeListSym parentIndex nextColor
        pTreeListChild := upd st.pTreeListChild parentIndex LZWIndex
        dictPos := st.dictPos + 1 }
  else
    { st with
      pTreeMap := upd2 st.pTreeMap (mapPos - 1) nextColor LZWIndex
      dictPos := st.dictPos + 1 }

/-- The `while` loop of `lzw_crawl_tree` (lines 136–181): follow the sparse
trie while the next symbol extends the current match; on a miss emit the
current match code and insert (or reset when the dictionary is full); at end
of input emit the final match code.  `rest` is the list of symbols after the
current match position; the returned list is the unconsumed suffix (starting
at the mismatching symbol). -/
def lzw_crawl_tree_loop (initDictLen : Nat) (st : LZWGenState) (parentIndex : Nat) :
    List Nat → Except Unit (LZWGenState × List Nat)
  | [] => .ok ({ st with pLZWData := st.pLZWData ++ [parentIndex] }, [])
  | c :: rest =>
    if initDictLen ≤ c then .error ()
    else if st.pTreeListChild parentIndex ≠ 0 ∧ st.pTreeListSym parentIndex = c then
      lzw_crawl_tree_loop initDictLen st (st.pTreeListChild parentIndex) rest
    else if st.pTreeListMap parentIndex ≠ 0 ∧
        st.pTreeMap (st.pTreeListMap parentIndex - 1) c ≠ 0 then
      lzw_crawl_tree_loop initDictLen st (st.pTreeMap (st.pTreeListMap parentIndex - 1) c) rest
    else
      let st1 := { st with pLZWData := st.pLZWData ++ [parentIndex] }
      let st2 := if st1.dictPos < MAX_DICT_LEN then
          add_child st1 parentIndex st1.dictPos c
        else resetDict st1 initDictLen
      .ok (st2, c :: rest)

/-- `lzw_crawl_tree`: reject out-of-alphabet symbols, take the first extension
step through the dense table (the current match is a single literal at this
point), then continue in the sparse trie via `lzw_crawl_tree_loop`. -/
def lzw_crawl_tree (initDictLen : Nat) (st : LZWGenState) (parentIndex : Nat) :
    List Nat → Except Unit (LZWGenState × List Nat)
  | [] =>
    if initDictLen ≤ parentIndex then .error ()
    else lzw_crawl_tree_loop initDictLen st parentIndex []
  | c :: rest =>
    if initDictLen ≤ parentIndex then .error ()
    else if initDictLen ≤ c then .error ()
    else if st.pTreeInit parentIndex c ≠ 0 then
      lzw_crawl_tree_loop initDictLen st (st.pTreeInit parentIndex c) rest
    else
      let st1 := { st with pLZWData := st.pLZWData ++ [parentIndex] }
      let st2 := if st1.dictPos < MAX_DICT_LEN then
          { st1 with
            pTreeInit := upd2 st1.pTreeInit parentIndex c st1.dictPos
            dictPos := st1.dictPos + 1 }
        else resetDict st1 initDictLen
      .ok (st2, c :: rest)

/-- The `while (strPos < pContext->numPixel)` loop of `lzw_generate`:
repeatedly take the next symbol as the new match root and crawl the trie. -/
def lzw_generate_loop (initDictLen : Nat) (st : LZWGenState) (syms : List Nat) :
    Except Unit LZWGenState :=
  match syms with
  | [] => .ok st
  | p :: rest =>
    match h : lzw_crawl_tree initDictLen st p rest with
    | .error e => .error e
    | .ok (st', rem) => lzw_generate_loop initDictLen st' rem
termination_by syms.length
decreasing_by
  have hloop : ∀ (rest1 : List Nat) (st1 : LZWGenState) (p1 : Nat)
      (st2 : LZWGenState) (rem1 : List Nat),
      lzw_crawl_tree_loop initDictLen st1 p1 rest1 = .ok (st2, rem1) →
      rem1.length ≤ rest1.length := by
    intro rest1
    induction rest1 with
    | nil =>
      intro st1 p1 st2 rem1 hl
      simp only [lzw_crawl_tree_loop] at hl
      cases hl
      simp
    | cons c1 rest1 ih =>
      intro st1 p1 st2 rem1 hl
      simp only [lzw_crawl_tree_loop] at hl
      split at hl
      · cases hl
      · split at hl
        · exact Nat.le_trans (ih _ _ _ _ hl) (Nat.le_succ _)
        · split at hl
          · exact Nat.le_trans (ih _ _ _ _ hl) (Nat.le_succ _)
          · cases hl
            simp
  have hcrawl : rem.length ≤ rest.length := by
    cases rest with
    | nil =>
      simp only [lzw_crawl_tree] at h
      split at h
      · cases h
      · exact hloop _ _ _ _ _ h
    | cons c1 rest1 =>
      simp only [lzw_crawl_tree] at h
      split at h
      · cases h
      · split at h
        · cases h
        · split at h
          · exact Nat.le_trans (hloop _ _ _ _ _ h) (Nat.le_succ _)
          · cases h
            simp
  simp only [List.length_cons]
  omega

/-- `lzw_generate`: reset the dictionary (emitting the initial Clear Code),
run the crawl loop over the whole symbol stream, then emit the End Code
`initDictLen + 1`.  Returns the code stream. -/
def lzw_generate (initDictLen : Nat) (syms : List Nat) : Except Unit (List Nat) :=
  let st0 : LZWGenState :=
    { pTreeInit := fun _ _ => 0
      pTreeListMap := fun _ => 0
      pTreeListSym := fun _ => 0
      pTreeListChild := fun _ => 0
      pTreeMap := fun _ _ => 0
      pLZWData := []
      dictPos := 0
      mapPos := 0 }
  match lzw_generate_loop initDictLen (resetDict st0 initDictLen) syms with
  | .error e => .error e
  | .ok st => .ok (st.pLZWData ++ [initDictLen + 1])

/-- The local state of `create_byte_list` (lines 207–219): `acc` holds the
completed output bytes `byteList[0..bytePos-1]`, `cur` the byte currently
being filled (`byteList[bytePos]`), and the remaining fields mirror the C
locals of the same names. -/
structure PackState where
  acc : List Nat
  cur : Nat
  bitOffset : Nat
  lzwCodeLen : Nat
  n : Nat
  dictPos : Nat
  correctLater : Bool

/-- One iteration of the `for` loop of `create_byte_list` (lines 220–260):
grow the code width when the running entry count reaches the current width's
capacity, OR the code's bits into the byte stream (spilling into one or two
further bytes as needed, with `uint8_t` casts as `% 256`), and reset the
width bookkeeping when the code just written is the Clear Code. -/
def packStep (initDictLen initCodeLen : Nat) (st : PackState) (code : Nat) : PackState :=
  let st :=
    if st.lzwCodeLen < MAX_CODE_LEN ∧ st.n - initDictLen = st.dictPos then
      { st with lzwCodeLen := st.lzwCodeLen + 1, n := st.n * 2 }
    else st
  let cur := st.cur ||| (code <<< st.bitOffset) % 256
  let st :=
    if st.lzwCodeLen + st.bitOffset ≥ 8 then
      if st.lzwCodeLen + st.bitOffset = 8 then
        { st with acc := st.acc ++ [cur], cur := 0, correctLater := true }
      else if st.lzwCodeLen + st.bitOffset < 16 then
        { st with acc := st.acc ++ [cur]
                  cur := (code >>> (8 - st.bitOffset)) % 256
                  correctLater := false }
      else if st.lzwCodeLen + st.bitOffset = 16 then
        { st with acc := st.acc ++ [cur, (code >>> (8 - st.bitOffset)) % 256]
                  cur := 0
                  correctLater := true }
      else
        { st with acc := st.acc ++ [cur, (code >>> (8 - st.bitOffset)) % 256]
                  cur := (code >>> (16 - st.bitOffset)) % 256
                  correctLater := false }
    else
      { st with cur := cur, correctLater := false }
  let st := { st with bitOffset := (st.lzwCodeLen + st.bitOffset) % 8,
                      dictPos := st.dictPos + 1 }
  if code = initDictLen then
    { st with lzwCodeLen := initCodeLen, n := 2 * initDictLen, dictPos := 1 }
  else st

/-- The initial packer state (`byteList[0] = 0; dictPos = 1; ...`). -/
def packInit (initDictLen initCodeLen : Nat) : PackState :=
  { acc := [], cur := 0, bitOffset := 0, lzwCodeLen := initCodeLen,
    n := 2 * initDictLen, dictPos := 1, correctLater := false }

/-- `create_byte_list`: pack the code stream into bytes.  The returned list is
`byteList[0..bytePos]` (the C function returns the index `bytePos` of the last
byte; when `correctLater` is set the speculative empty byte is dropped by the
final `--bytePos`). -/
def create_byte_list (codes : List Nat) (initDictLen initCodeLen : Nat) : List Nat :=
  let st := codes.foldl (packStep initDictLen initCodeLen) (packInit initDictLen initCodeLen)
  if st.correctLater then st.acc else st.acc ++ [st.cur]

/-- `create_byte_list_block`: split the packed bytes into sub-blocks of at
most `BLOCK_SIZE = 255` payload bytes, each preceded by its length byte, and
terminate with a zero-length byte.  The C function does this with a `for`
loop over the full blocks followed by the remainder; rendered here as
recursion over the byte list, producing the identical layout. -/
def create_byte_list_block (byteList : List Nat) : List Nat :=
  if 255 ≤ byteList.length then
    255 :: byteList.take 255 ++ create_byte_list_block (byteList.drop 255)
  else if byteList.length = 0 then [0]
  else byteList.length :: (byteList ++ [0])
termination_by byteList.length
decreasing_by simp only [List.length_drop, List.length_cons]; omega

/-- `LZW_GenerateStream`: generate the code stream, pack it, chunk it.  On a
nonzero return from `lzw_generate` the error is propagated and no raster data
is produced. -/
def LZW_GenerateStream (syms : List Nat) (initDictLen initCodeLen : Nat) :
    Except Unit (List Nat) :=
  match lzw_generate initDictLen syms with
  | .error e => .error e
  | .ok codes => .ok (create_byte_list_block (create_byte_list codes initDictLen initCodeLen))

/-- `lzw_encode` (lines 336–352): the public entry point fixes the alphabet to
256 (`initCodeLen = calcInitCodeLen(256)`, `initDictLen = 1 << (initCodeLen-1)`)
and encodes the byte string.  The C code ignores `LZW_GenerateStream`'s return
value; the error branch is unreachable for byte input (every `uint8_t` symbol
is `< 256`), and is mapped to `[]` here. -/
def lzw_encode (data : List Nat) : List Nat :=
  let initCodeLen := calcInitCodeLen 256
  let initDictLen := 2 ^ (initCodeLen - 1)
  match LZW_GenerateStream data initDictLen initCodeLen with
  | .ok out => out
  | .error _ => []

/-! ### A GIF-compliant LZW raster-data decoder (spec-modelled)

Decoding is not part of the repository (spec §1 lists decompression as a
non-goal); the spec's round-trip and decodability properties (§6, §8) are
stated against "any GIF-compliant decoder using `paletteSize`-derived minimum
code size (`initCodeLen - 1`)".  The decoder below is modelled from those
spec sentences and the GIF89a LZW conventions they refer to. -/

/-- The value of a bit string, least-significant bit first. -/
def bitsVal : List Bool → Nat
  | [] => 0
  | b :: rest => (if b then 1 else 0) + 2 * bitsVal rest

/-- The `w`-bit little-endian bit string of `v`. -/
def toBitsLSB : Nat → Nat → List Bool
  | 0, _ => []
  | w + 1, v => (v % 2 = 1) :: toBitsLSB w (v / 2)

/-- The eight bits of a byte, least-significant first. -/
def byteToBitsLSB (b : Nat) : List Bool := toBitsLSB 8 b

/-- Modelled from the spec: the decoder-side sub-block parser (the inverse of
the chunker, spec §3 "Raster Data", §4.5), absent from the source.  Reads
`[length byte][payload]` sub-blocks (length 1..255) until the zero-length
terminator, which must end the stream; yields the concatenated payloads. -/
def deblock : List Nat → Option (List Nat)
  | [] => none
  | n :: rest =>
    if n = 0 then (if rest = [] then some [] else none)
    else if n ≤ rest.length ∧ n ≤ 255 then
      match deblock (rest.drop n) with
      | some tail => some (rest.take n ++ tail)
      | none => none
    else none
termination_by l => l.length
decreasing_by simp only [List.length_drop, List.length_cons]; omega

/-- The state of the spec-modelled LZW decoder: `table` maps each assigned
code to the symbol string it stands for, `nextCode` is the next assignable
code, `codeLen` the current read width, `prev` the previously decoded string,
`out` the output so far. -/
structure LZWDecState where
  table : Nat → List Nat
  nextCode : Nat
  codeLen : Nat
  prev : Option (List Nat)
  out : List Nat

/-- The decoder's initial code table: literals only. -/
def decInitTable (clearCode : Nat) : Nat → List Nat :=
  fun c => if c < clearCode then [c] else []

/-- Modelled from the spec: the decoder's dictionary-entry assignment (absent
from the source).  Adds the string at `nextCode` (stopping at the 4096-code
GIF ceiling) and widens the read width when `nextCode` reaches `2^codeLen`,
capped at 12 bits. -/
def decAddEntry (st : LZWDecState) (s : List Nat) : LZWDecState :=
  if st.nextCode < 4096 then
    let st1 := { st with
      table := fun c => if c = st.nextCode then s else st.table c
      nextCode := st.nextCode + 1 }
    if st1.nextCode = 2 ^ st1.codeLen ∧ st1.codeLen < 12 then
      { st1 with codeLen := st1.codeLen + 1 }
    else st1
  else st

/-- Modelled from the spec: the main loop of a GIF-compliant LZW decoder
(absent from the source).  Reads one `codeLen`-bit code per step
(least-significant bit first): a Clear Code resets the table and width, the
End Code terminates, a known code emits its string (assigning
`previous ++ [first of current]`), and the not-yet-assigned code `nextCode`
is the standard cScSc case.  `fuel` bounds the recursion; each step consumes
at least one bit, so `bits.length + 1` is always enough. -/
def lzw_decode_loop (clearCode initCodeLen : Nat) :
    Nat → LZWDecState → List Bool → Option (List Nat)
  | 0, _, _ => none
  | fuel + 1, st, bits =>
    if st.codeLen ≤ bits.length ∧ 0 < st.codeLen then
      let code := bitsVal (bits.take st.codeLen)
      let bits1 := bits.drop st.codeLen
      if code = clearCode then
        lzw_decode_loop clearCode initCodeLen fuel
          { table := decInitTable clearCode, nextCode := clearCode + 2,
            codeLen := initCodeLen, prev := none, out := st.out } bits1
      else if code = clearCode + 1 then
        some st.out
      else
        match st.prev with
        | none =>
          if code < clearCode then
            lzw_decode_loop clearCode initCodeLen fuel
              { st with out := st.out ++ [code], prev := some [code] } bits1
          else none
        | some prevStr =>
          if code < st.nextCode then
            let entry := st.table code
            lzw_decode_loop clearCode initCodeLen fuel
              { decAddEntry st (prevStr ++ [entry.headI]) with
                out := st.out ++ entry, prev := some entry } bits1
          else if code = st.nextCode then
            let entry := prevStr ++ [prevStr.headI]
            lzw_decode_loop clearCode initCodeLen fuel
              { decAddEntry st entry with
                out := st.out ++ entry, prev := some entry } bits1
          else none
    else none

/-- Modelled from the spec: `lzw_decode`, a GIF-compliant raster-data decoder
(absent from the source; spec §6/§8 state the round-trip against it).
De-chunks the sub-blocks, streams the bits least-significant-bit first, and
runs the LZW decode loop with minimum code size `minCodeSize`
(initial width `minCodeSize + 1`, Clear Code `2^minCodeSize`). -/
def lzw_decode (minCodeSize : Nat) (raster : List Nat) : Option (List Nat) :=
  match deblock raster with
  | none => none
  | some bytes =>
    let bits := (bytes.map byteToBitsLSB).flatten
    lzw_decode_loop (2 ^ minCodeSize) (minCodeSize + 1) (bits.length + 1)
      { table := decInitTable (2 ^ minCodeSize), nextCode := 2 ^ minCodeSize + 2,
        codeLen := minCodeSize + 1, prev := none, out := [] } bits

/-! ### Width components of the packer state

For stating invariants of `create_byte_list` it is convenient to project the
packer state onto the three fields that drive the code-width policy
(`lzwCodeLen`, `n`, `dictPos`); `widthStep` is exactly what one iteration of
the packing loop does to them, and `writeLen` is the width at which the
current code is written (after the growth check at the top of the loop
body). -/

structure WState where
  lzwCodeLen : Nat
  n : Nat
  dictPos : Nat

def projW (st : PackState) : WState :=
  { lzwCodeLen := st.lzwCodeLen, n := st.n, dictPos := st.dictPos }

def widthStep (initDictLen initCodeLen : Nat) (w : WState) (code : Nat) : WState :=
  let w :=
    if w.lzwCodeLen < MAX_CODE_LEN ∧ w.n - initDictLen = w.dictPos then
      { w with lzwCodeLen := w.lzwCodeLen + 1, n := w.n * 2 }
    else w
  let w := { w with dictPos := w.dictPos + 1 }
  if code = initDictLen then
    { lzwCodeLen := initCodeLen, n := 2 * initDictLen, dictPos := 1 }
  else w

def writeLen (initDictLen : Nat) (w : WState) : Nat :=
  if w.lzwCodeLen < MAX_CODE_LEN ∧ w.n - initDictLen = w.dictPos then
    w.lzwCodeLen + 1
  else w.lzwCodeLen

def wInit (initDictLen initCodeLen : Nat) : WState :=
  { lzwCodeLen := initCodeLen, n := 2 * initDictLen, dictPos := 1 }

/-- The width-policy invariant maintained along any packed code stream:
`n` mirrors `2^lzwCodeLen`, the width stays between `initCodeLen` and 12,
and `dictPos` stays within the current width's capacity until the width is
pinned at 12 bits. -/
def WInv (initDictLen initCodeLen : Nat) (w : WState) : Prop :=
  w.n = 2 ^ w.lzwCodeLen ∧ initCodeLen ≤ w.lzwCodeLen ∧
  w.lzwCodeLen ≤ MAX_CODE_LEN ∧ 1 ≤ w.dictPos ∧
  (w.dictPos ≤ w.n - initDictLen ∨ w.lzwCodeLen = MAX_CODE_LEN)

/-- The width-policy state after scanning a code list (the width components
of the packer state after packing those codes). -/
def scanW (initDictLen initCodeLen : Nat) (L : List Nat) : WState :=
  List.foldl (widthStep initDictLen initCodeLen) (wInit initDictLen initCodeLen) L

/-- Every code of the list fits in the width at which the packer writes it
(the width after the growth check at the top of that iteration). -/
def codesOK (initDictLen initCodeLen : Nat) : WState → List Nat → Prop
  | _, [] => True
  | w, c :: cs =>
    c < 2 ^ writeLen initDictLen w ∧
    codesOK initDictLen initCodeLen (widthStep initDictLen initCodeLen w c) cs

/-- A value stored in a trie slot: empty (`0`) or a dictionary-assigned code,
which is at least `initDictLen + 2` and below the next-assignable code. -/
def okCode (initDictLen dictPos v : Nat) : Prop :=
  v = 0 ∨ (initDictLen + 2 ≤ v ∧ v < dictPos)

/-- The encoder-run invariant coupling the emitted code stream with the
packer's width policy: the stream emitted so far fits the width schedule,
the width-policy invariant holds, the next-assignable code stays between
`initDictLen + 2` and 4096 and never runs ahead of what the packer's entry
counter accounts for, and every trie slot holds a valid assigned code. -/
def EncInv (initDictLen initCodeLen : Nat) (st : LZWGenState) : Prop :=
  codesOK initDictLen initCodeLen (wInit initDictLen initCodeLen) st.pLZWData ∧
  WInv initDictLen initCodeLen (scanW initDictLen initCodeLen st.pLZWData) ∧
  initDictLen + 2 ≤ st.dictPos ∧
  st.dictPos ≤ MAX_DICT_LEN ∧
  st.dictPos ≤ initDictLen + 1 + (scanW initDictLen initCodeLen st.pLZWData).dictPos ∧
  (∀ p c, okCode initDictLen st.dictPos (st.pTreeInit p c)) ∧
  (∀ p, okCode initDictLen st.dictPos (st.pTreeListChild p)) ∧
  (∀ p s, st.pTreeListMap p ≠ 0 →
    okCode initDictLen st.dictPos (st.pTreeMap (st.pTreeListMap p - 1) s))

/-- The exact bit stream that the packing loop writes for a code list:
each code contributes its value's bits, least-significant first, at the width
current when it is written. -/
def codeBits (initDictLen initCodeLen : Nat) : WState → List Nat → List Bool
  | _, [] => []
  | w, c :: cs =>
    toBitsLSB (writeLen initDictLen w) c ++
    codeBits initDictLen initCodeLen (widthStep initDictLen initCodeLen w c) cs

/-- Soundness of the encoder's trie with respect to a ghost assignment `E` of
symbol strings to codes: every nonzero slot of the dense table maps a root
literal and a symbol to a code standing for that two-symbol string; every
inline child extends its parent's string by the stored symbol; every
overflow-map entry extends its parent's string by the looked-up symbol.  The
bookkeeping clauses make updates local: slots of not-yet-assigned nodes are
empty, allocated overflow rows are below the pool cursor, and no two nodes
share an overflow row. -/
def TrieSound (initDictLen : Nat) (st : LZWGenState) (E : Nat → List Nat) : Prop :=
  (∀ p c, st.pTreeInit p c ≠ 0 → E (st.pTreeInit p c) = [p, c]) ∧
  (∀ p, st.pTreeListChild p ≠ 0 →
    E (st.pTreeListChild p) = E p ++ [st.pTreeListSym p]) ∧
  (∀ p s, st.pTreeListMap p ≠ 0 → st.pTreeMap (st.pTreeListMap p - 1) s ≠ 0 →
    E (st.pTreeMap (st.pTreeListMap p - 1) s) = E p ++ [s]) ∧
  (∀ p, st.dictPos ≤ p → st.pTreeListChild p = 0 ∧ st.pTreeListMap p = 0) ∧
  (∀ p, st.pTreeListMap p < st.mapPos) ∧
  (∀ p q, st.pTreeListMap p ≠ 0 → st.pTreeListMap q = st.pTreeListMap p → q = p) ∧
  1 ≤ st.mapPos

/-- The boundary synchronisation between the encoder and the spec-modelled
decoder, holding between two matches: the decoder's read width equals the
width at which the packer writes the next code; the decoder's table agrees
with the ghost assignment on literals and on all assigned codes below its
next-assignable code; the encoder's next code mirrors the packer's per-epoch
code count; and when a previous match exists the decoder trails the encoder
by exactly the one pending dictionary entry, whose string is that match
extended by the next input symbol. -/
def BSync (initDictLen initCodeLen : Nat) (st : LZWGenState) (E : Nat → List Nat)
    (Dst : LZWDecState) (rem : List Nat) : Prop :=
  Dst.codeLen = writeLen initDictLen (scanW initDictLen initCodeLen st.pLZWData) ∧
  (∀ c, c < initDictLen → Dst.table c = [c]) ∧
  (∀ c, initDictLen + 2 ≤ c → c < Dst.nextCode → Dst.table c = E c) ∧
  st.dictPos = initDictLen + 1 +
    (scanW initDictLen initCodeLen st.pLZWData).dictPos ∧
  (match Dst.prev with
   | none =>
     scanW initDictLen initCodeLen st.pLZWData = wInit initDictLen initCodeLen ∧
     Dst.nextCode = initDictLen + 2
   | some m =>
     2 ≤ (scanW initDictLen initCodeLen st.pLZWData).dictPos ∧
     Dst.nextCode = st.dictPos - 1 ∧ m ≠ [] ∧
     ∀ r rest2, rem = r :: rest2 → E (st.dictPos - 1) = m ++ [r])

theorem lzw_crawl_tree_loop_rem_length (initDictLen : Nat) :
    ∀ (rest : List Nat) (st : LZWGenState) (parentIndex : Nat)
      (st' : LZWGenState) (rem : List Nat),
      lzw_crawl_tree_loop initDictLen st parentIndex rest = .ok (st', rem) →
      rem.length ≤ rest.length := by
  intro rest
  induction rest with
  | nil =>
    intro st p st' rem h
    simp only [lzw_crawl_tree_loop] at h
    cases h
    simp
  | cons c rest ih =>
    intro st p st' rem h
    simp only [lzw_crawl_tree_loop] at h
    split at h
    · cases h
    · split at h
      · exact Nat.le_trans (ih _ _ _ _ h) (Nat.le_succ _)
      · split at h
        · exact Nat.le_trans (ih _ _ _ _ h) (Nat.le_succ _)
        · cases h
          simp

theorem lzw_crawl_tree_rem_length (initDictLen : Nat) (rest : List Nat)
    (st : LZWGenState) (parentIndex : Nat) (st' : LZWGenState) (rem : List Nat)
    (h : lzw_crawl_tree initDictLen st parentIndex rest = .ok (st', rem)) :
    rem.length ≤ rest.length := by
  cases rest with
  | nil =>
    simp only [lzw_crawl_tree] at h
    split at h
    · cases h
    · exact lzw_crawl_tree_loop_rem_length _ _ _ _ _ _ h
  | cons c rest =>
    simp only [lzw_crawl_tree] at h
    split at h
    · cases h
    · split at h
      · cases h
      · split at h
        · exact Nat.le_trans (lzw_crawl_tree_loop_rem_length _ _ _ _ _ _ h) (Nat.le_succ _)
        · cases h
          simp

/-! ### Code-width policy (claim C4) -/

theorem nextPow2Go_spec (n : Nat) :
    ∀ (fuel p : Nat), n ≤ 2 ^ (p + fuel) →
      n ≤ 2 ^ nextPow2Go n fuel p ∧ p ≤ nextPow2Go n fuel p ∧
      ∀ q, p ≤ q → n ≤ 2 ^ q → nextPow2Go n fuel p ≤ q := by
  intro fuel
  induction fuel with
  | zero =>
    intro p hp
    simp only [nextPow2Go]
    exact ⟨by simpa using hp, Nat.le_refl _, fun q hq _ => hq⟩
  | succ fuel ih =>
    intro p hp
    simp only [nextPow2Go]
    split
    · rename_i hgt
      have h1 : n ≤ 2 ^ (p + 1 + fuel) := by
        have : p + 1 + fuel = p + (fuel + 1) := by omega
        rw [this]; exact hp
      obtain ⟨a, b, c⟩ := ih (p + 1) h1
      refine ⟨a, Nat.le_trans (Nat.le_succ _) b, fun q hq hq2 => ?_⟩
      have : p + 1 ≤ q := by
        rcases Nat.lt_or_ge p q with h | h
        · omega
        · have : q = p := by omega
          subst this
          omega
      exact c q this hq2
    · rename_i hle
      exact ⟨by omega, Nat.le_refl _, fun q hq _ => hq⟩

/-- `calcNextPower2Ex n` is the smallest `p` with `n ≤ 2^p`. -/
theorem calcNextPower2Ex_spec (n : Nat) :
    n ≤ 2 ^ calcNextPower2Ex n ∧ ∀ q, n ≤ 2 ^ q → calcNextPower2Ex n ≤ q := by
  have h0 : n ≤ 2 ^ (0 + n) := by
    simpa using Nat.le_of_lt (Nat.lt_two_pow n)
  obtain ⟨a, _, c⟩ := nextPow2Go_spec n n 0 h0
  exact ⟨a, fun q hq => c q (Nat.zero_le q) hq⟩

/-- C4, counterexample: the claim states `initDictLen = 2^p` with `p` the
smallest integer such that `2^p ≥ paletteSize`; at `paletteSize = 2` the
smallest such `p` is `1`, but the code derives
`initDictLen = 1 << (initCodeLen - 1) = 4 ≠ 2^1`. -/
theorem C4_initDictLen_counterexample :
    calcNextPower2Ex 2 = 1 ∧ 2 ^ (calcInitCodeLen 2 - 1) ≠ 2 ^ 1 := by
  decide

/-- C4, amended: with `p` the smallest integer such that `2^p ≥ paletteSize`,
the derived parameters (lines 346–347: `initCodeLen = calcInitCodeLen(n)`,
`initDictLen = 1 << (initCodeLen - 1)`) satisfy `initCodeLen = max(3, p + 1)`
and `initDictLen = 2^max(2, p)`; in particular `paletteSize = 2` yields
`initCodeLen = 3` and `initDictLen = 4`. -/
theorem C4_derived_params (ps p : Nat) (h1 : ps ≤ 2 ^ p)
    (h2 : ∀ q, ps ≤ 2 ^ q → p ≤ q) :
    calcInitCodeLen ps = max 3 (p + 1) ∧
    2 ^ (calcInitCodeLen ps - 1) = 2 ^ max 2 p := by
  obtain ⟨ha, hb⟩ := calcNextPower2Ex_spec ps
  have hp : calcNextPower2Ex ps = p :=
    Nat.le_antisymm (hb p h1) (h2 _ ha)
  have hcl : calcInitCodeLen ps = if p < 3 then 3 else p + 1 := by
    simp only [calcInitCodeLen, hp]
  rw [hcl]
  constructor
  · split <;> omega
  · split <;> (congr 1 <;> omega)

/-- Witness for `C4_derived_params` at `paletteSize = 2`, `p = 1`. -/
theorem C4_derived_params_witness :
    (2 ≤ 2 ^ 1) ∧ (∀ q, 2 ≤ 2 ^ q → 1 ≤ q) ∧
    (calcInitCodeLen 2 = max 3 (1 + 1) ∧ 2 ^ (calcInitCodeLen 2 - 1) = 2 ^ max 2 1) := by
  have h2 : ∀ q, 2 ≤ 2 ^ q → 1 ≤ q := by
    intro q hq
    cases q with
    | zero => norm_num at hq
    | succ q => omega
  exact ⟨by decide, h2, C4_derived_params 2 1 (by decide) h2⟩

/-! ### The code stream is append-only through the encoder (towards C6) -/

theorem add_child_pLZWData (st : LZWGenState) (p i c : Nat) :
    (add_child st p i c).pLZWData = st.pLZWData := by
  simp only [add_child]
  split
  · split <;> rfl
  · rfl

theorem add_child_dictPos (st : LZWGenState) (p i c : Nat) :
    (add_child st p i c).dictPos = st.dictPos + 1 := by
  simp only [add_child]
  split
  · split <;> rfl
  · rfl

theorem lzw_crawl_tree_loop_data (initDictLen : Nat) :
    ∀ (rest : List Nat) (st : LZWGenState) (parentIndex : Nat)
      (st' : LZWGenState) (rem : List Nat),
      lzw_crawl_tree_loop initDictLen st parentIndex rest = .ok (st', rem) →
      ∃ t, st'.pLZWData = st.pLZWData ++ t := by
  intro rest
  induction rest with
  | nil =>
    intro st p st' rem h
    simp only [lzw_crawl_tree_loop] at h
    cases h
    exact ⟨[p], rfl⟩
  | cons c rest ih =>
    intro st p st' rem h
    simp only [lzw_crawl_tree_loop] at h
    split at h
    · cases h
    · split at h
      · exact ih _ _ _ _ h
      · split at h
        · exact ih _ _ _ _ h
        · cases h
          split
          · rw [add_child_pLZWData]
            exact ⟨[p], rfl⟩
          · exact ⟨[p, initDictLen], by simp [resetDict]⟩

theorem lzw_crawl_tree_data (initDictLen : Nat) (rest : List Nat)
    (st : LZWGenState) (parentIndex : Nat) (st' : LZWGenState) (rem : List Nat)
    (h : lzw_crawl_tree initDictLen st parentIndex rest = .ok (st', rem)) :
    ∃ t, st'.pLZWData = st.pLZWData ++ t := by
  cases rest with
  | nil =>
    simp only [lzw_crawl_tree] at h
    split at h
    · cases h
    · exact lzw_crawl_tree_loop_data _ _ _ _ _ _ h
  | cons c rest =>
    simp only [lzw_crawl_tree] at h
    split at h
    · cases h
    · split at h
      · cases h
      · split at h
        · exact lzw_crawl_tree_loop_data _ _ _ _ _ _ h
        · cases h
          split
          · exact ⟨[parentIndex], rfl⟩
          · exact ⟨[parentIndex, initDictLen], by simp [resetDict]⟩

theorem lzw_generate_loop_nil (initDictLen : Nat) (st : LZWGenState) :
    lzw_generate_loop initDictLen st [] = .ok st := by
  rw [lzw_generate_loop]

theorem lzw_generate_loop_cons (initDictLen : Nat) (st : LZWGenState)
    (p : Nat) (rest : List Nat) :
    lzw_generate_loop initDictLen st (p :: rest) =
      match lzw_crawl_tree initDictLen st p rest with
      | .error e => .error e
      | .ok (st', rem) => lzw_generate_loop initDictLen st' rem := by
  rw [lzw_generate_loop]
  rcases hcr : lzw_crawl_tree initDictLen st p rest with e | ⟨st2, rem⟩ <;> simp [hcr]

theorem lzw_generate_loop_data (initDictLen : Nat) (st : LZWGenState)
    (syms : List Nat) (st' : LZWGenState)
    (h : lzw_generate_loop initDictLen st syms = .ok st') :
    ∃ t, st'.pLZWData = st.pLZWData ++ t := by
  induction st, syms using lzw_generate_loop.induct initDictLen with
  | case1 st =>
    simp only [lzw_generate_loop] at h
    cases h
    exact ⟨[], by simp⟩
  | case2 st c rest e he =>
    rw [lzw_generate_loop_cons, he] at h
    cases h
  | case3 st c rest stm rem he ih =>
    rw [lzw_generate_loop_cons, he] at h
    obtain ⟨t1, h1⟩ := ih h
    obtain ⟨t2, h2⟩ := lzw_crawl_tree_data _ _ _ _ _ _ he
    exact ⟨t2 ++ t1, by rw [h1, h2, List.append_assoc]⟩

/-- C6: every successfully produced code stream begins with the Clear Code
(`initDictLen`, emitted by the initial dictionary reset) and ends with the
End Code (`initDictLen + 1`). -/
theorem C6_code_stream_ends (initDictLen : Nat) (syms codes : List Nat)
    (h : lzw_generate initDictLen syms = .ok codes) :
    codes.head? = some initDictLen ∧ codes.getLast? = some (initDictLen + 1) := by
  simp only [lzw_generate] at h
  split at h
  · cases h
  · rename_i st hloop
    cases h
    obtain ⟨t, ht⟩ := lzw_generate_loop_data _ _ _ _ hloop
    simp only [resetDict] at ht
    constructor
    · rw [ht]
      simp
    · simp

/-- Witness for `C6_code_stream_ends` on the empty symbol stream. -/
theorem C6_code_stream_ends_witness :
    lzw_generate 256 [] = .ok [256, 257] ∧
    ([256, 257] : List Nat).head? = some 256 ∧
    ([256, 257] : List Nat).getLast? = some (256 + 1) := by
  have h : lzw_generate 256 [] = .ok [256, 257] := by
    simp [lzw_generate, lzw_generate_loop, resetDict]
  exact ⟨h, C6_code_stream_ends 256 [] [256, 257] h⟩

/-! ### Sub-block chunker (claim C7) -/

theorem deblock_cons (n : Nat) (rest : List Nat) :
    deblock (n :: rest) =
      if n = 0 then (if rest = [] then some [] else none)
      else if n ≤ rest.length ∧ n ≤ 255 then
        match deblock (rest.drop n) with
        | some tail => some (rest.take n ++ tail)
        | none => none
      else none := by
  rw [deblock]

theorem create_byte_list_block_ne_nil (l : List Nat) :
    create_byte_list_block l ≠ [] := by
  rw [create_byte_list_block]
  split
  · simp
  · split <;> simp

theorem deblock_block_spec (l : List Nat) :
    deblock (create_byte_list_block l) = some l ∧
    (create_byte_list_block l).getLast? = some 0 := by
  suffices H : ∀ (n : Nat) (l : List Nat), l.length = n →
      deblock (create_byte_list_block l) = some l ∧
      (create_byte_list_block l).getLast? = some 0 from H _ l rfl
  intro n
  induction n using Nat.strong_induction_on with
  | _ n ih =>
  intro l hn
  subst hn
  rw [create_byte_list_block]
  split
  · rename_i hbig
    have hdlen : (l.drop 255).length < l.length := by
      simp only [List.length_drop]
      omega
    obtain ⟨ih1, ih2⟩ := ih _ hdlen (l.drop 255) rfl
    have htk : (l.take 255).length = 255 := by
      simp
      omega
    constructor
    · rw [List.cons_append, deblock_cons]
      simp only [List.length_append, htk]
      have hge : 255 ≤ 255 + (create_byte_list_block (l.drop 255)).length := by omega
      rw [if_neg (by omega), if_pos ⟨hge, Nat.le_refl _⟩]
      have h1 : (l.take 255 ++ create_byte_list_block (l.drop 255)).take 255 = l.take 255 := by
        have := List.take_left (l.take 255) (create_byte_list_block (l.drop 255))
        rwa [htk] at this
      have h2 : (l.take 255 ++ create_byte_list_block (l.drop 255)).drop 255 =
          create_byte_list_block (l.drop 255) := by
        have := List.drop_left (l.take 255) (create_byte_list_block (l.drop 255))
        rwa [htk] at this
      rw [h1, h2, ih1]
      simp
    · rw [show (255 : Nat) :: l.take 255 ++ create_byte_list_block (l.drop 255) =
          (255 :: l.take 255) ++ create_byte_list_block (l.drop 255) from rfl]
      rw [List.getLast?_append_of_ne_nil _ (create_byte_list_block_ne_nil _)]
      exact ih2
  · split
    · rename_i hsmall hzero
      have : l = [] := List.length_eq_zero.mp hzero
      subst this
      constructor
      · rw [deblock_cons]
        simp
      · simp
    · rename_i hsmall hnz
      constructor
      · rw [deblock_cons]
        rw [if_neg hnz]
        have hc : l.length ≤ (l ++ [0]).length ∧ l.length ≤ 255 := by
          simp
          omega
        rw [if_pos hc]
        have h1 : (l ++ [0]).take l.length = l := List.take_left _ _
        have h2 : (l ++ [0]).drop l.length = [0] := List.drop_left _ _
        rw [h1, h2, deblock_cons]
        simp
      · have hsplit : l.length :: (l ++ [0]) = (l.length :: l) ++ [0] := by
          simp
        rw [hsplit, List.getLast?_concat]

/-- C7: de-chunking the chunker's output recovers the packed byte stream
exactly (so the output is a sequence of sub-blocks, each a one-byte length
prefix of value ≤ 255 followed by exactly that many payload bytes, whose
concatenated payloads equal the input, ending with the zero-length
terminator as the final byte), and the final byte is the zero terminator. -/
theorem C7_chunker (l : List Nat) :
    deblock (create_byte_list_block l) = some l ∧
    (create_byte_list_block l).getLast? = some 0 :=
  deblock_block_spec l

/-! ### Out-of-alphabet symbols abort the encode (claims C5, C9) -/

theorem lzw_crawl_tree_loop_bad_preserved (initDictLen : Nat) :
    ∀ (rest : List Nat) (st : LZWGenState) (parentIndex : Nat)
      (st' : LZWGenState) (rem : List Nat),
      (∃ s ∈ rest, initDictLen ≤ s) →
      lzw_crawl_tree_loop initDictLen st parentIndex rest = .ok (st', rem) →
      ∃ s ∈ rem, initDictLen ≤ s := by
  intro rest
  induction rest with
  | nil =>
    intro st p st' rem hbad h
    simp at hbad
  | cons c rest ih =>
    intro st p st' rem hbad h
    simp only [lzw_crawl_tree_loop] at h
    split at h
    · cases h
    · rename_i hc
      have hbad' : ∃ s ∈ rest, initDictLen ≤ s := by
        obtain ⟨s, hs, hs2⟩ := hbad
        rcases List.mem_cons.mp hs with rfl | hs
        · omega
        · exact ⟨s, hs, hs2⟩
      split at h
      · exact ih _ _ _ _ hbad' h
      · split at h
        · exact ih _ _ _ _ hbad' h
        · cases h
          exact hbad

theorem lzw_crawl_tree_bad_preserved (initDictLen : Nat) (rest : List Nat)
    (st : LZWGenState) (parentIndex : Nat) (st' : LZWGenState) (rem : List Nat)
    (hbad : ∃ s ∈ rest, initDictLen ≤ s)
    (h : lzw_crawl_tree initDictLen st parentIndex rest = .ok (st', rem)) :
    ∃ s ∈ rem, initDictLen ≤ s := by
  cases rest with
  | nil => simp at hbad
  | cons c rest =>
    simp only [lzw_crawl_tree] at h
    split at h
    · cases h
    · split at h
      · cases h
      · rename_i hp hc
        have hbad' : ∃ s ∈ rest, initDictLen ≤ s := by
          obtain ⟨s, hs, hs2⟩ := hbad
          rcases List.mem_cons.mp hs with rfl | hs
          · omega
          · exact ⟨s, hs, hs2⟩
        split at h
        · exact lzw_crawl_tree_loop_bad_preserved _ _ _ _ _ _ hbad' h
        · cases h
          exact hbad

theorem lzw_crawl_tree_badroot (initDictLen : Nat) (st : LZWGenState)
    (parentIndex : Nat) (rest : List Nat) (h : initDictLen ≤ parentIndex) :
    lzw_crawl_tree initDictLen st parentIndex rest = .error () := by
  cases rest <;> simp [lzw_crawl_tree, h]

theorem lzw_generate_loop_bad (initDictLen : Nat) :
    ∀ (nl : Nat) (syms : List Nat), syms.length ≤ nl →
      ∀ (st : LZWGenState), (∃ s ∈ syms, initDictLen ≤ s) →
      lzw_generate_loop initDictLen st syms = .error () := by
  intro nl
  induction nl with
  | zero =>
    intro syms hlen st hbad
    have : syms = [] := List.length_eq_zero.mp (by omega)
    subst this
    simp at hbad
  | succ n ih =>
    intro syms hlen st hbad
    cases syms with
    | nil => simp at hbad
    | cons p rest =>
      rw [lzw_generate_loop_cons]
      rcases hcr : lzw_crawl_tree initDictLen st p rest with e | ⟨st', rem⟩
      · rfl
      · obtain ⟨s, hs, hs2⟩ := hbad
        rcases List.mem_cons.mp hs with rfl | hs
        · rw [lzw_crawl_tree_badroot initDictLen st s rest hs2] at hcr
          cases hcr
        · have hbad' : ∃ s ∈ rem, initDictLen ≤ s :=
            lzw_crawl_tree_bad_preserved _ _ _ _ _ _ ⟨s, hs, hs2⟩ hcr
          have hrl := lzw_crawl_tree_rem_length _ _ _ _ _ _ hcr
          simp only [List.length_cons] at hlen
          exact ih rem (by omega) st' hbad'

/-- C5: if any input symbol is `≥ initDictLen`, the encode fails (nonzero
return, mapped to `Except.error`), detected in `lzw_crawl_tree` and propagated
through `lzw_generate` and `LZW_GenerateStream`; no raster data is produced. -/
theorem C5_corrupt_input (initDictLen initCodeLen : Nat) (syms : List Nat)
    (hbad : ∃ s ∈ syms, initDictLen ≤ s) :
    LZW_GenerateStream syms initDictLen initCodeLen = .error () := by
  simp only [LZW_GenerateStream, lzw_generate]
  rw [lzw_generate_loop_bad initDictLen syms.length syms (Nat.le_refl _) _ hbad]

/-- Witness for `C5_corrupt_input`: symbol 5 is out of range for
`initDictLen = 4`. -/
theorem C5_corrupt_input_witness :
    (∃ s ∈ [(5 : Nat)], 4 ≤ s) ∧ LZW_GenerateStream [5] 4 3 = .error () :=
  ⟨by decide, C5_corrupt_input 4 3 [5] (by decide)⟩

theorem lzw_crawl_tree_loop_good (initDictLen : Nat) :
    ∀ (rest : List Nat) (st : LZWGenState) (parentIndex : Nat),
      (∀ s ∈ rest, s < initDictLen) →
      ∃ st' rem, lzw_crawl_tree_loop initDictLen st parentIndex rest = .ok (st', rem) ∧
        ∀ s ∈ rem, s < initDictLen := by
  intro rest
  induction rest with
  | nil =>
    intro st p _
    exact ⟨_, _, rfl, by simp⟩
  | cons c rest ih =>
    intro st p hgood
    have hc : c < initDictLen := hgood c (by simp)
    simp only [lzw_crawl_tree_loop]
    rw [if_neg (by omega)]
    have hgood' : ∀ s ∈ rest, s < initDictLen := fun s hs => hgood s (by simp [hs])
    split
    · exact ih _ _ hgood'
    · split
      · exact ih _ _ hgood'
      · exact ⟨_, _, rfl, hgood⟩

theorem lzw_crawl_tree_good (initDictLen : Nat) (rest : List Nat)
    (st : LZWGenState) (parentIndex : Nat)
    (hp : parentIndex < initDictLen) (hgood : ∀ s ∈ rest, s < initDictLen) :
    ∃ st' rem, lzw_crawl_tree initDictLen st parentIndex rest = .ok (st', rem) ∧
      ∀ s ∈ rem, s < initDictLen := by
  cases rest with
  | nil =>
    simp only [lzw_crawl_tree]
    rw [if_neg (by omega)]
    exact lzw_crawl_tree_loop_good _ _ _ _ (by simp)
  | cons c rest =>
    have hc : c < initDictLen := hgood c (by simp)
    have hgood' : ∀ s ∈ rest, s < initDictLen := fun s hs => hgood s (by simp [hs])
    simp only [lzw_crawl_tree]
    rw [if_neg (by omega), if_neg (by omega)]
    split
    · exact lzw_crawl_tree_loop_good _ _ _ _ hgood'
    · exact ⟨_, _, rfl, hgood⟩

theorem lzw_generate_loop_good (initDictLen : Nat) :
    ∀ (nl : Nat) (syms : List Nat), syms.length ≤ nl →
      ∀ (st : LZWGenState), (∀ s ∈ syms, s < initDictLen) →
      ∃ st', lzw_generate_loop initDictLen st syms = .ok st' := by
  intro nl
  induction nl with
  | zero =>
    intro syms hlen st _
    have : syms = [] := List.length_eq_zero.mp (by omega)
    subst this
    exact ⟨st, lzw_generate_loop_nil _ _⟩
  | succ n ih =>
    intro syms hlen st hgood
    cases syms with
    | nil => exact ⟨st, lzw_generate_loop_nil _ _⟩
    | cons p rest =>
      have hp : p < initDictLen := hgood p (by simp)
      have hgood' : ∀ s ∈ rest, s < initDictLen := fun s hs => hgood s (by simp [hs])
      obtain ⟨st', rem, hcr, hgr⟩ := lzw_crawl_tree_good initDictLen rest st p hp hgood'
      rw [lzw_generate_loop_cons, hcr]
      have hrl := lzw_crawl_tree_rem_length _ _ _ _ _ _ hcr
      simp only [List.length_cons] at hlen
      exact ih rem (by omega) st' hgr

/-- C9: at the public entry point the alphabet is fixed to 256
(`initCodeLen = calcInitCodeLen(256) = 9`, `initDictLen = 2^8 = 256`), every
`uint8` symbol is `< 256`, so the out-of-alphabet error branch is unreachable:
`LZW_GenerateStream` succeeds and `lzw_encode` returns its raster data. -/
theorem C9_byte_input_ok (data : List Nat) (h : ∀ s ∈ data, s < 256) :
    calcInitCodeLen 256 = 9 ∧ 2 ^ (calcInitCodeLen 256 - 1) = 256 ∧
    ∃ out, LZW_GenerateStream data (2 ^ (calcInitCodeLen 256 - 1)) (calcInitCodeLen 256) = .ok out ∧
      lzw_encode data = out := by
  refine ⟨by decide, by decide, ?_⟩
  obtain ⟨st', hst⟩ := lzw_generate_loop_good 256 data.length data (Nat.le_refl _)
    (resetDict
      { pTreeInit := fun _ _ => 0, pTreeListMap := fun _ => 0, pTreeListSym := fun _ => 0,
        pTreeListChild := fun _ => 0, pTreeMap := fun _ _ => 0, pLZWData := [],
        dictPos := 0, mapPos := 0 } 256) h
  have hgen : lzw_generate 256 data = .ok (st'.pLZWData ++ [256 + 1]) := by
    simp only [lzw_generate]
    rw [hst]
  have h256 : (2 : Nat) ^ (calcInitCodeLen 256 - 1) = 256 := by decide
  have h9 : calcInitCodeLen 256 = 9 := by decide
  have hstream : LZW_GenerateStream data 256 9 =
      .ok (create_byte_list_block (create_byte_list (st'.pLZWData ++ [256 + 1]) 256 9)) := by
    simp only [LZW_GenerateStream]
    rw [hgen]
  refine ⟨create_byte_list_block (create_byte_list (st'.pLZWData ++ [256 + 1]) 256 9), ?_, ?_⟩
  · rw [h256, h9]
    exact hstream
  · simp only [lzw_encode]
    rw [h256, h9, hstream]

/-- Witness for `C9_byte_input_ok` on a small byte string. -/
theorem C9_byte_input_ok_witness :
    (∀ s ∈ [(0 : Nat), 1, 2, 1, 0], s < 256) ∧
    (calcInitCodeLen 256 = 9 ∧ 2 ^ (calcInitCodeLen 256 - 1) = 256 ∧
     ∃ out, LZW_GenerateStream [0, 1, 2, 1, 0] (2 ^ (calcInitCodeLen 256 - 1)) (calcInitCodeLen 256) = .ok out ∧
       lzw_encode [0, 1, 2, 1, 0] = out) :=
  ⟨by decide, C9_byte_input_ok [0, 1, 2, 1, 0] (by decide)⟩

/-! ### Dictionary ceiling and reset discipline (claim C2) -/

theorem lzw_crawl_tree_loop_dictPos (initDictLen : Nat)
    (h4 : initDictLen + 2 ≤ MAX_DICT_LEN) :
    ∀ (rest : List Nat) (st : LZWGenState) (parentIndex : Nat)
      (st' : LZWGenState) (rem : List Nat),
      st.dictPos ≤ MAX_DICT_LEN →
      lzw_crawl_tree_loop initDictLen st parentIndex rest = .ok (st', rem) →
      st'.dictPos ≤ MAX_DICT_LEN := by
  intro rest
  induction rest with
  | nil =>
    intro st p st' rem hd h
    simp only [lzw_crawl_tree_loop] at h
    cases h
    exact hd
  | cons c rest ih =>
    intro st p st' rem hd h
    simp only [lzw_crawl_tree_loop] at h
    split at h
    · cases h
    · split at h
      · exact ih _ _ _ _ hd h
      · split at h
        · exact ih _ _ _ _ hd h
        · cases h
          split
          · rename_i hlt
            rw [add_child_dictPos]
            simpa using hlt
          · simp only [resetDict]
            exact h4

theorem lzw_crawl_tree_dictPos (initDictLen : Nat)
    (h4 : initDictLen + 2 ≤ MAX_DICT_LEN) (rest : List Nat)
    (st : LZWGenState) (parentIndex : Nat) (st' : LZWGenState) (rem : List Nat)
    (hd : st.dictPos ≤ MAX_DICT_LEN)
    (h : lzw_crawl_tree initDictLen st parentIndex rest = .ok (st', rem)) :
    st'.dictPos ≤ MAX_DICT_LEN := by
  cases rest with
  | nil =>
    simp only [lzw_crawl_tree] at h
    split at h
    · cases h
    · exact lzw_crawl_tree_loop_dictPos _ h4 _ _ _ _ _ hd h
  | cons c rest =>
    simp only [lzw_crawl_tree] at h
    split at h
    · cases h
    · split at h
      · cases h
      · split at h
        · exact lzw_crawl_tree_loop_dictPos _ h4 _ _ _ _ _ hd h
        · cases h
          split
          · rename_i hlt
            simpa using hlt
          · simp only [resetDict]
            exact h4

theorem lzw_generate_loop_dictPos (initDictLen : Nat)
    (h4 : initDictLen + 2 ≤ MAX_DICT_LEN) (st : LZWGenState) (syms : List Nat)
    (st' : LZWGenState) (hd : st.dictPos ≤ MAX_DICT_LEN)
    (h : lzw_generate_loop initDictLen st syms = .ok st') :
    st'.dictPos ≤ MAX_DICT_LEN := by
  induction st, syms using lzw_generate_loop.induct initDictLen with
  | case1 st =>
    rw [lzw_generate_loop_nil] at h
    cases h
    exact hd
  | case2 st c rest e he =>
    rw [lzw_generate_loop_cons, he] at h
    cases h
  | case3 st c rest stm rem he ih =>
    rw [lzw_generate_loop_cons, he] at h
    exact ih (lzw_crawl_tree_dictPos _ h4 _ _ _ _ _ hd he) h

theorem lzw_crawl_tree_at_capacity (initDictLen : Nat) (st : LZWGenState)
    (parentIndex c : Nat) (rest : List Nat)
    (hcap : st.dictPos = MAX_DICT_LEN) (hp : parentIndex < initDictLen)
    (hc : c < initDictLen) (hmiss : st.pTreeInit parentIndex c = 0) :
    lzw_crawl_tree initDictLen st parentIndex (c :: rest) =
      .ok (resetDict { st with pLZWData := st.pLZWData ++ [parentIndex] } initDictLen,
           c :: rest) := by
  simp only [lzw_crawl_tree]
  rw [if_neg (by omega), if_neg (by omega), if_neg (by simp [hmiss])]
  have hlt : ¬ ({ st with pLZWData := st.pLZWData ++ [parentIndex] } : LZWGenState).dictPos
      < MAX_DICT_LEN := by
    simp only []
    omega
  rw [if_neg hlt]

theorem lzw_crawl_tree_loop_at_capacity (initDictLen : Nat) (st : LZWGenState)
    (v c : Nat) (rest : List Nat)
    (hcap : st.dictPos = MAX_DICT_LEN) (hc : c < initDictLen)
    (hmiss1 : ¬(st.pTreeListChild v ≠ 0 ∧ st.pTreeListSym v = c))
    (hmiss2 : ¬(st.pTreeListMap v ≠ 0 ∧ st.pTreeMap (st.pTreeListMap v - 1) c ≠ 0)) :
    lzw_crawl_tree_loop initDictLen st v (c :: rest) =
      .ok (resetDict { st with pLZWData := st.pLZWData ++ [v] } initDictLen,
           c :: rest) := by
  simp only [lzw_crawl_tree_loop]
  rw [if_neg (by omega : ¬ initDictLen ≤ c), if_neg hmiss1, if_neg hmiss2]
  have hlt : ¬ ({ st with pLZWData := st.pLZWData ++ [v] } : LZWGenState).dictPos
      < MAX_DICT_LEN := by
    simp only []
    omega
  rw [if_neg hlt]

/-- C2: (i) the dictionary reset zeroes the dense table, the sparse node list
and the overflow-pool cursor, sets the next-assignable code back to
`initDictLen + 2` and appends a Clear Code to the code stream; (ii) every
crawl step keeps the total of assigned codes (`dictPos`) at or below 4096;
(iii) so does any whole encode run; (iv) when the next assignment would
exceed the ceiling (`dictPos = 4096` at a dense-table miss on the first
extension step), the step performs exactly the reset of (i) after emitting
the pending code; (v) likewise at a sparse-trie miss inside the crawl loop
(neither the inline child nor the overflow map extends the match), the loop
emits the current match code and performs exactly the reset of (i). -/
theorem C2_dict_ceiling (initDictLen : Nat) (h4 : initDictLen + 2 ≤ MAX_DICT_LEN) :
    (∀ st : LZWGenState,
      resetDict st initDictLen =
        { pTreeInit := fun _ _ => 0, pTreeListMap := fun _ => 0,
          pTreeListSym := fun _ => 0, pTreeListChild := fun _ => 0,
          pTreeMap := st.pTreeMap, pLZWData := st.pLZWData ++ [initDictLen],
          dictPos := initDictLen + 2, mapPos := 1 }) ∧
    (∀ (st : LZWGenState) (p : Nat) (rest : List Nat) (st' : LZWGenState)
       (rem : List Nat), st.dictPos ≤ MAX_DICT_LEN →
       lzw_crawl_tree initDictLen st p rest = .ok (st', rem) →
       st'.dictPos ≤ MAX_DICT_LEN) ∧
    (∀ (st : LZWGenState) (syms : List Nat) (st' : LZWGenState),
       st.dictPos ≤ MAX_DICT_LEN →
       lzw_generate_loop initDictLen st syms = .ok st' →
       st'.dictPos ≤ MAX_DICT_LEN) ∧
    (∀ (st : LZWGenState) (p c : Nat) (rest : List Nat),
       st.dictPos = MAX_DICT_LEN → p < initDictLen → c < initDictLen →
       st.pTreeInit p c = 0 →
       lzw_crawl_tree initDictLen st p (c :: rest) =
         .ok (resetDict { st with pLZWData := st.pLZWData ++ [p] } initDictLen,
              c :: rest)) ∧
    (∀ (st : LZWGenState) (v c : Nat) (rest : List Nat),
       st.dictPos = MAX_DICT_LEN → c < initDictLen →
       ¬(st.pTreeListChild v ≠ 0 ∧ st.pTreeListSym v = c) →
       ¬(st.pTreeListMap v ≠ 0 ∧ st.pTreeMap (st.pTreeListMap v - 1) c ≠ 0) →
       lzw_crawl_tree_loop initDictLen st v (c :: rest) =
         .ok (resetDict { st with pLZWData := st.pLZWData ++ [v] } initDictLen,
              c :: rest)) := by
  refine ⟨fun st => rfl, ?_, ?_, ?_, ?_⟩
  · intro st p rest st' rem hd h
    exact lzw_crawl_tree_dictPos _ h4 _ _ _ _ _ hd h
  · intro st syms st' hd h
    exact lzw_generate_loop_dictPos _ h4 _ _ _ hd h
  · intro st p c rest hcap hp hc hmiss
    exact lzw_crawl_tree_at_capacity _ _ _ _ _ hcap hp hc hmiss
  · intro st v c rest hcap hc hmiss1 hmiss2
    exact lzw_crawl_tree_loop_at_capacity _ _ _ _ _ hcap hc hmiss1 hmiss2

/-- Witness for `C2_dict_ceiling` at the entry point's `initDictLen = 256`. -/
theorem C2_dict_ceiling_witness :
    (256 + 2 ≤ MAX_DICT_LEN) ∧
    ((∀ st : LZWGenState,
      resetDict st 256 =
        { pTreeInit := fun _ _ => 0, pTreeListMap := fun _ => 0,
          pTreeListSym := fun _ => 0, pTreeListChild := fun _ => 0,
          pTreeMap := st.pTreeMap, pLZWData := st.pLZWData ++ [256],
          dictPos := 256 + 2, mapPos := 1 }) ∧
    (∀ (st : LZWGenState) (p : Nat) (rest : List Nat) (st' : LZWGenState)
       (rem : List Nat), st.dictPos ≤ MAX_DICT_LEN →
       lzw_crawl_tree 256 st p rest = .ok (st', rem) →
       st'.dictPos ≤ MAX_DICT_LEN) ∧
    (∀ (st : LZWGenState) (syms : List Nat) (st' : LZWGenState),
       st.dictPos ≤ MAX_DICT_LEN →
       lzw_generate_loop 256 st syms = .ok st' →
       st'.dictPos ≤ MAX_DICT_LEN) ∧
    (∀ (st : LZWGenState) (p c : Nat) (rest : List Nat),
       st.dictPos = MAX_DICT_LEN → p < 256 → c < 256 →
       st.pTreeInit p c = 0 →
       lzw_crawl_tree 256 st p (c :: rest) =
         .ok (resetDict { st with pLZWData := st.pLZWData ++ [p] } 256,
              c :: rest)) ∧
    (∀ (st : LZWGenState) (v c : Nat) (rest : List Nat),
       st.dictPos = MAX_DICT_LEN → c < 256 →
       ¬(st.pTreeListChild v ≠ 0 ∧ st.pTreeListSym v = c) →
       ¬(st.pTreeListMap v ≠ 0 ∧ st.pTreeMap (st.pTreeListMap v - 1) c ≠ 0) →
       lzw_crawl_tree_loop 256 st v (c :: rest) =
         .ok (resetDict { st with pLZWData := st.pLZWData ++ [v] } 256,
              c :: rest))) :=
  ⟨by decide, C2_dict_ceiling 256 (by decide)⟩

/-! ### The packer's code-width policy (claim C3) -/

theorem packStep_projW (initDictLen initCodeLen : Nat) (st : PackState) (code : Nat) :
    projW (packStep initDictLen initCodeLen st code) =
      widthStep initDictLen initCodeLen (projW st) code := by
  simp only [packStep, widthStep, projW]
  split_ifs <;> rfl

theorem foldl_packStep_projW (initDictLen initCodeLen : Nat) (codes : List Nat) :
    ∀ st : PackState,
      projW (List.foldl (packStep initDictLen initCodeLen) st codes) =
        List.foldl (widthStep initDictLen initCodeLen) (projW st) codes := by
  induction codes with
  | nil => intro st; rfl
  | cons c cs ih =>
    intro st
    simp only [List.foldl_cons, ih, packStep_projW]

theorem wInit_WInv (initDictLen initCodeLen : Nat)
    (h1 : initDictLen = 2 ^ (initCodeLen - 1)) (h2 : 1 ≤ initCodeLen)
    (h3 : initCodeLen ≤ MAX_CODE_LEN) :
    WInv initDictLen initCodeLen (wInit initDictLen initCodeLen) := by
  have h2idl : 2 * initDictLen = 2 ^ initCodeLen := by
    rw [h1, ← Nat.pow_succ']
    congr 1
    omega
  have hidl1 : 1 ≤ initDictLen := by
    rw [h1]; exact Nat.one_le_two_pow
  refine ⟨h2idl, Nat.le_refl _, h3, Nat.le_refl _, Or.inl ?_⟩
  show 1 ≤ 2 * initDictLen - initDictLen
  omega

theorem widthStep_WInv (initDictLen initCodeLen : Nat)
    (h1 : initDictLen = 2 ^ (initCodeLen - 1)) (h2 : 1 ≤ initCodeLen)
    (h3 : initCodeLen ≤ MAX_CODE_LEN) (w : WState) (code : Nat)
    (hw : WInv initDictLen initCodeLen w) :
    WInv initDictLen initCodeLen (widthStep initDictLen initCodeLen w code) := by
  obtain ⟨hn, hicl, hcap, hdp, hfit⟩ := hw
  have hn1 : 1 ≤ w.n := by
    rw [hn]; exact Nat.one_le_two_pow
  have hidl1 : 1 ≤ initDictLen := by
    rw [h1]; exact Nat.one_le_two_pow
  simp only [widthStep]
  split
  · exact wInit_WInv _ _ h1 h2 h3
  · split
    · rename_i hgrow
      obtain ⟨hlt, heq⟩ := hgrow
      have hpow : w.n * 2 = 2 ^ (w.lzwCodeLen + 1) := by
        rw [hn, Nat.pow_succ]
      refine ⟨hpow, ?_, ?_, ?_, Or.inl ?_⟩
      · show initCodeLen ≤ w.lzwCodeLen + 1
        omega
      · show w.lzwCodeLen + 1 ≤ MAX_CODE_LEN
        exact hlt
      · show 1 ≤ w.dictPos + 1
        omega
      · show w.dictPos + 1 ≤ w.n * 2 - initDictLen
        omega
    · rename_i hngrow
      rcases hfit with hfit | hfit
      · rcases Nat.lt_or_ge w.lzwCodeLen MAX_CODE_LEN with hl | hl
        · have hne : w.n - initDictLen ≠ w.dictPos := by
            intro hc
            exact hngrow ⟨hl, hc⟩
          refine ⟨hn, hicl, hcap, ?_, Or.inl ?_⟩
          · show 1 ≤ w.dictPos + 1
            omega
          · show w.dictPos + 1 ≤ w.n - initDictLen
            omega
        · refine ⟨hn, hicl, hcap, ?_, Or.inr ?_⟩
          · show 1 ≤ w.dictPos + 1
            omega
          · show w.lzwCodeLen = MAX_CODE_LEN
            omega
      · refine ⟨hn, hicl, hcap, ?_, Or.inr hfit⟩
        show 1 ≤ w.dictPos + 1
        omega

theorem foldl_widthStep_WInv (initDictLen initCodeLen : Nat)
    (h1 : initDictLen = 2 ^ (initCodeLen - 1)) (h2 : 1 ≤ initCodeLen)
    (h3 : initCodeLen ≤ MAX_CODE_LEN) (codes : List Nat) :
    ∀ w : WState, WInv initDictLen initCodeLen w →
      WInv initDictLen initCodeLen
        (List.foldl (widthStep initDictLen initCodeLen) w codes) := by
  induction codes with
  | nil => intro w hw; exact hw
  | cons c cs ih =>
    intro w hw
    simp only [List.foldl_cons]
    exact ih _ (widthStep_WInv _ _ h1 h2 h3 _ _ hw)

/-- C3: the packer's code width starts at `initCodeLen`; one packing step
grows it by exactly one bit when the running entry counter reaches the
current width's capacity (`n - initDictLen = dictPos` with `n = 2^width`),
resets it to `initCodeLen` exactly on the Clear Code, and otherwise leaves
it unchanged; and along every code stream the width never exceeds 12 bits,
with `n` tracking `2^width` throughout. -/
theorem C3_packer_width (initDictLen initCodeLen : Nat)
    (h1 : initDictLen = 2 ^ (initCodeLen - 1)) (h2 : 1 ≤ initCodeLen)
    (h3 : initCodeLen ≤ MAX_CODE_LEN) :
    (packInit initDictLen initCodeLen).lzwCodeLen = initCodeLen ∧
    (∀ (st : PackState) (code : Nat),
      (packStep initDictLen initCodeLen st code).lzwCodeLen =
        if code = initDictLen then initCodeLen
        else if st.lzwCodeLen < MAX_CODE_LEN ∧ st.n - initDictLen = st.dictPos then
          st.lzwCodeLen + 1
        else st.lzwCodeLen) ∧
    (∀ codes : List Nat,
      (List.foldl (packStep initDictLen initCodeLen)
        (packInit initDictLen initCodeLen) codes).lzwCodeLen ≤ MAX_CODE_LEN ∧
      (List.foldl (packStep initDictLen initCodeLen)
        (packInit initDictLen initCodeLen) codes).n =
        2 ^ (List.foldl (packStep initDictLen initCodeLen)
          (packInit initDictLen initCodeLen) codes).lzwCodeLen) := by
  refine ⟨rfl, ?_, ?_⟩
  · intro st code
    have hproj : (packStep initDictLen initCodeLen st code).lzwCodeLen =
        (widthStep initDictLen initCodeLen (projW st) code).lzwCodeLen := by
      rw [show (packStep initDictLen initCodeLen st code).lzwCodeLen =
        (projW (packStep initDictLen initCodeLen st code)).lzwCodeLen from rfl,
        packStep_projW]
    rw [hproj]
    simp only [widthStep, projW]
    split_ifs <;> simp_all
  · intro codes
    have hw := foldl_widthStep_WInv initDictLen initCodeLen h1 h2 h3 codes
      (wInit initDictLen initCodeLen) (wInit_WInv _ _ h1 h2 h3)
    have hproj := foldl_packStep_projW initDictLen initCodeLen codes
      (packInit initDictLen initCodeLen)
    have hpw : projW (packInit initDictLen initCodeLen) = wInit initDictLen initCodeLen := rfl
    rw [hpw] at hproj
    obtain ⟨hn, _, hcap, _, _⟩ := hw
    constructor
    · rw [show (List.foldl (packStep initDictLen initCodeLen)
        (packInit initDictLen initCodeLen) codes).lzwCodeLen =
        (projW (List.foldl (packStep initDictLen initCodeLen)
          (packInit initDictLen initCodeLen) codes)).lzwCodeLen from rfl, hproj]
      exact hcap
    · rw [show (List.foldl (packStep initDictLen initCodeLen)
        (packInit initDictLen initCodeLen) codes).n =
        (projW (List.foldl (packStep initDictLen initCodeLen)
          (packInit initDictLen initCodeLen) codes)).n from rfl,
        show (List.foldl (packStep initDictLen initCodeLen)
        (packInit initDictLen initCodeLen) codes).lzwCodeLen =
        (projW (List.foldl (packStep initDictLen initCodeLen)
          (packInit initDictLen initCodeLen) codes)).lzwCodeLen from rfl,
        hproj]
      exact hn

/-- Witness for `C3_packer_width` at the entry point's parameters. -/
theorem C3_packer_width_witness :
    ((256 : Nat) = 2 ^ (9 - 1) ∧ 1 ≤ 9 ∧ 9 ≤ MAX_CODE_LEN) ∧
    ((packInit 256 9).lzwCodeLen = 9 ∧
    (∀ (st : PackState) (code : Nat),
      (packStep 256 9 st code).lzwCodeLen =
        if code = 256 then 9
        else if st.lzwCodeLen < MAX_CODE_LEN ∧ st.n - 256 = st.dictPos then
          st.lzwCodeLen + 1
        else st.lzwCodeLen) ∧
    (∀ codes : List Nat,
      (List.foldl (packStep 256 9) (packInit 256 9) codes).lzwCodeLen ≤ MAX_CODE_LEN ∧
      (List.foldl (packStep 256 9) (packInit 256 9) codes).n =
        2 ^ (List.foldl (packStep 256 9) (packInit 256 9) codes).lzwCodeLen)) :=
  ⟨⟨by decide, by decide, by decide⟩, C3_packer_width 256 9 (by decide) (by decide) (by decide)⟩

/-! ### Empty input (claim C8) -/

/-- C8: the empty symbol stream emits exactly Clear Code then End Code
(`[256, 257]` at the entry point's parameters, no literal codes), is packed
and chunked into the raster data `[3, 0, 3, 2, 0]`, and that raster data
decodes to the empty sequence with minimum code size 8. -/
theorem C8_empty_input :
    lzw_generate 256 [] = .ok [256, 256 + 1] ∧
    lzw_encode [] = [3, 0, 3, 2, 0] ∧
    lzw_decode 8 (lzw_encode []) = some [] := by
  have h1 : lzw_generate 256 [] = .ok [256, 256 + 1] := by
    simp [lzw_generate, lzw_generate_loop, resetDict]
  have h9 : calcInitCodeLen 256 = 9 := by decide
  have h256 : (2 : Nat) ^ (9 - 1) = 256 := by decide
  have h2 : lzw_encode [] = create_byte_list_block (create_byte_list [256, 256 + 1] 256 9) := by
    simp only [lzw_encode, LZW_GenerateStream, h9, h256]
    rw [h1]
  have h3 : create_byte_list [256, 256 + 1] 256 9 = [0, 3, 2] := by decide
  have h4 : create_byte_list_block [0, 3, 2] = [3, 0, 3, 2, 0] := by
    rw [create_byte_list_block]
    norm_num
  have h5 : lzw_encode [] = [3, 0, 3, 2, 0] := by
    rw [h2, h3, h4]
  have hdb0 : deblock [(0 : Nat)] = some [] := by
    rw [deblock_cons]
    norm_num
  have hdb : deblock [3, 0, 3, 2, 0] = some [0, 3, 2] := by
    rw [deblock_cons]
    norm_num
    rw [hdb0]
  have h6 : lzw_decode 8 [3, 0, 3, 2, 0] = some [] := by
    simp only [lzw_decode]
    rw [hdb]
    decide
  refine ⟨h1, h5, ?_⟩
  rw [h5]
  exact h6

/-! ### The emitted codes fit the packer's width schedule (claim C10) -/

theorem widthStep_clear (initDictLen initCodeLen : Nat) (w : WState) :
    widthStep initDictLen initCodeLen w initDictLen = wInit initDictLen initCodeLen := by
  simp [widthStep, wInit]

theorem widthStep_dictPos_ne (initDictLen initCodeLen : Nat) (w : WState) (c : Nat)
    (hc : c ≠ initDictLen) :
    (widthStep initDictLen initCodeLen w c).dictPos = w.dictPos + 1 := by
  simp only [widthStep]
  rw [if_neg hc]
  split <;> rfl

theorem scanW_append (initDictLen initCodeLen : Nat) (L M : List Nat) :
    scanW initDictLen initCodeLen (L ++ M) =
      List.foldl (widthStep initDictLen initCodeLen) (scanW initDictLen initCodeLen L) M := by
  simp [scanW, List.foldl_append]

theorem codesOK_append (initDictLen initCodeLen : Nat) :
    ∀ (L M : List Nat) (w : WState),
      codesOK initDictLen initCodeLen w (L ++ M) ↔
        (codesOK initDictLen initCodeLen w L ∧
         codesOK initDictLen initCodeLen
           (List.foldl (widthStep initDictLen initCodeLen) w L) M) := by
  intro L
  induction L with
  | nil =>
    intro M w
    simp [codesOK]
  | cons c cs ih =>
    intro M w
    simp [codesOK, ih, and_assoc]

theorem le_writeLen (initDictLen : Nat) (w : WState) :
    w.lzwCodeLen ≤ writeLen initDictLen w := by
  unfold writeLen
  split <;> omega

/-- Any value below both `initDictLen + 1 + dictPos` and the 4096 ceiling fits
in the width at which the packer writes the next code. -/
theorem emit_fits (initDictLen initCodeLen : Nat) (w : WState) (x : Nat)
    (hW : WInv initDictLen initCodeLen w)
    (hx1 : x < initDictLen + 1 + w.dictPos) (hx2 : x < MAX_DICT_LEN) :
    x < 2 ^ writeLen initDictLen w := by
  obtain ⟨hn, hicl, hcap, hdp, hfit⟩ := hW
  unfold writeLen
  split
  · rename_i hg
    obtain ⟨hlt, heq⟩ := hg
    have hpow : (2 : Nat) ^ (w.lzwCodeLen + 1) = 2 * 2 ^ w.lzwCodeLen := by
      rw [Nat.pow_succ]
      ring
    have h1n : 1 ≤ w.n := by
      rw [hn]
      exact Nat.one_le_two_pow
    rw [hpow, ← hn]
    omega
  · rename_i hng
    by_cases h12 : w.lzwCodeLen = MAX_CODE_LEN
    · have hnM : w.n = MAX_DICT_LEN := by
        rw [hn, h12, MAX_DICT_LEN]
      rw [← hn, hnM]
      exact hx2
    · have hfit2 : w.dictPos ≤ w.n - initDictLen := by
        rcases hfit with hfit | hfit
        · exact hfit
        · omega
      have hne : w.n - initDictLen ≠ w.dictPos := fun hc => hng ⟨by omega, hc⟩
      rw [← hn]
      omega

/-- The Clear Code and the End Code always fit the current write width. -/
theorem clear_end_fit (initDictLen initCodeLen : Nat) (w : WState)
    (h1 : initDictLen = 2 ^ (initCodeLen - 1)) (h2 : 2 ≤ initCodeLen)
    (hW : WInv initDictLen initCodeLen w) :
    initDictLen + 1 < 2 ^ writeLen initDictLen w := by
  obtain ⟨hn, hicl, _, _, _⟩ := hW
  have hicl_le : initCodeLen ≤ writeLen initDictLen w :=
    Nat.le_trans hicl (le_writeLen _ _)
  have hple : (2 : Nat) ^ initCodeLen ≤ 2 ^ writeLen initDictLen w :=
    Nat.pow_le_pow_right (by omega) hicl_le
  have h2idl : 2 * initDictLen = 2 ^ initCodeLen := by
    rw [h1, ← Nat.pow_succ']
    congr 1
    omega
  have hidl2 : 2 ≤ initDictLen := by
    rw [h1]
    calc (2 : Nat) = 2 ^ 1 := rfl
    _ ≤ 2 ^ (initCodeLen - 1) := Nat.pow_le_pow_right (by omega) (by omega)
  omega

theorem okCode_mono (initDictLen d d' v : Nat) (h : okCode initDictLen d v)
    (hd : d ≤ d') : okCode initDictLen d' v := by
  rcases h with h | h
  · exact Or.inl h
  · exact Or.inr ⟨h.1, by omega⟩

theorem add_child_tables (initDictLen : Nat) (st : LZWGenState) (p0 c0 : Nat)
    (hd : initDictLen + 2 ≤ st.dictPos)
    (hInit : ∀ p c, okCode initDictLen st.dictPos (st.pTreeInit p c))
    (hChild : ∀ p, okCode initDictLen st.dictPos (st.pTreeListChild p))
    (hMap : ∀ p s, st.pTreeListMap p ≠ 0 →
      okCode initDictLen st.dictPos (st.pTreeMap (st.pTreeListMap p - 1) s)) :
    (∀ p c, okCode initDictLen (st.dictPos + 1)
      ((add_child st p0 st.dictPos c0).pTreeInit p c)) ∧
    (∀ p, okCode initDictLen (st.dictPos + 1)
      ((add_child st p0 st.dictPos c0).pTreeListChild p)) ∧
    (∀ p s, (add_child st p0 st.dictPos c0).pTreeListMap p ≠ 0 →
      okCode initDictLen (st.dictPos + 1)
        ((add_child st p0 st.dictPos c0).pTreeMap
          ((add_child st p0 st.dictPos c0).pTreeListMap p - 1) s)) := by
  have hnew : okCode initDictLen (st.dictPos + 1) st.dictPos := Or.inr ⟨hd, by omega⟩
  have hz : okCode initDictLen (st.dictPos + 1) 0 := Or.inl rfl
  simp only [add_child]
  split
  · split
    · -- allocate an overflow-map row
      refine ⟨fun p c => okCode_mono _ _ _ _ (hInit p c) (by omega),
              fun p => okCode_mono _ _ _ _ (hChild p) (by omega), ?_⟩
      intro p s hne
      simp only at hne ⊢
      by_cases hp : p = p0
      · subst hp
        rw [upd_eq] at hne ⊢
        rw [if_pos rfl]
        split
        · exact hnew
        · exact hz
      · rw [upd_ne _ _ _ _ hp] at hne ⊢
        split
        · split
          · exact hnew
          · exact hz
        · exact okCode_mono _ _ _ _ (hMap p s hne) (by omega)
    · -- inline child slot
      refine ⟨fun p c => okCode_mono _ _ _ _ (hInit p c) (by omega), ?_, ?_⟩
      · intro p
        simp only []
        by_cases hp : p = p0
        · subst hp
          rw [upd_eq]
          exact hnew
        · rw [upd_ne _ _ _ _ hp]
          exact okCode_mono _ _ _ _ (hChild p) (by omega)
      · intro p s hne
        simp only at hne ⊢
        exact okCode_mono _ _ _ _ (hMap p s hne) (by omega)
  · -- store in the existing overflow-map row
    refine ⟨fun p c => okCode_mono _ _ _ _ (hInit p c) (by omega),
            fun p => okCode_mono _ _ _ _ (hChild p) (by omega), ?_⟩
    intro p s hne
    simp only at hne ⊢
    by_cases hrow : st.pTreeListMap p - 1 = st.pTreeListMap p0 - 1 ∧ s = c0
    · rw [show upd2 st.pTreeMap (st.pTreeListMap p0 - 1) c0 st.dictPos
          (st.pTreeListMap p - 1) s = st.dictPos from by
        rw [hrow.1, hrow.2]
        exact upd2_eq _ _ _ _]
      exact hnew
    · rw [upd2_ne _ _ _ _ _ _ hrow]
      exact okCode_mono _ _ _ _ (hMap p s hne) (by omega)

/-- Appending one emitted (non-reserved or assigned) code keeps the stream
within the width schedule and advances the packer's entry counter. -/
theorem emit_preserves (initDictLen initCodeLen : Nat) (st : LZWGenState) (p : Nat)
    (h1 : initDictLen = 2 ^ (initCodeLen - 1)) (h2 : 1 ≤ initCodeLen)
    (h3 : initCodeLen ≤ MAX_CODE_LEN)
    (hOK : codesOK initDictLen initCodeLen (wInit initDictLen initCodeLen) st.pLZWData)
    (hW : WInv initDictLen initCodeLen (scanW initDictLen initCodeLen st.pLZWData))
    (hd2 : initDictLen + 2 ≤ st.dictPos)
    (hdM : st.dictPos ≤ MAX_DICT_LEN)
    (hsync : st.dictPos ≤ initDictLen + 1 +
      (scanW initDictLen initCodeLen st.pLZWData).dictPos)
    (hp : p < initDictLen ∨ (initDictLen + 2 ≤ p ∧ p < st.dictPos)) :
    codesOK initDictLen initCodeLen (wInit initDictLen initCodeLen)
      (st.pLZWData ++ [p]) ∧
    WInv initDictLen initCodeLen
      (scanW initDictLen initCodeLen (st.pLZWData ++ [p])) ∧
    scanW initDictLen initCodeLen (st.pLZWData ++ [p]) =
      widthStep initDictLen initCodeLen
        (scanW initDictLen initCodeLen st.pLZWData) p ∧
    (scanW initDictLen initCodeLen (st.pLZWData ++ [p])).dictPos =
      (scanW initDictLen initCodeLen st.pLZWData).dictPos + 1 := by
  have hpd : p < st.dictPos := by
    rcases hp with hp | hp
    · omega
    · exact hp.2
  have hfits : p < 2 ^ writeLen initDictLen (scanW initDictLen initCodeLen st.pLZWData) :=
    emit_fits initDictLen initCodeLen _ p hW (by omega) (by omega)
  have hne : p ≠ initDictLen := by
    rcases hp with hp | hp
    · omega
    · omega
  have hscan : scanW initDictLen initCodeLen (st.pLZWData ++ [p]) =
      widthStep initDictLen initCodeLen (scanW initDictLen initCodeLen st.pLZWData) p := by
    rw [scanW_append]
    rfl
  refine ⟨?_, ?_, hscan, ?_⟩
  · rw [codesOK_append]
    exact ⟨hOK, hfits, trivial⟩
  · rw [hscan]
    exact widthStep_WInv _ _ h1 h2 h3 _ _ hW
  · rw [hscan]
    exact widthStep_dictPos_ne _ _ _ _ hne

theorem reset_preserves (initDictLen initCodeLen : Nat) (st : LZWGenState)
    (h1 : initDictLen = 2 ^ (initCodeLen - 1)) (h2 : 2 ≤ initCodeLen)
    (h3 : initCodeLen ≤ MAX_CODE_LEN)
    (hOK : codesOK initDictLen initCodeLen (wInit initDictLen initCodeLen) st.pLZWData)
    (hW : WInv initDictLen initCodeLen (scanW initDictLen initCodeLen st.pLZWData)) :
    EncInv initDictLen initCodeLen (resetDict st initDictLen) := by
  have hidlM : initDictLen + 2 ≤ MAX_DICT_LEN := by
    have hm12 : MAX_CODE_LEN = 12 := rfl
    have hle : (2 : Nat) ^ (initCodeLen - 1) ≤ 2 ^ 11 :=
      Nat.pow_le_pow_right (by omega) (by omega)
    have h2048 : (2 : Nat) ^ 11 = 2048 := by norm_num
    have hM : MAX_DICT_LEN = 4096 := rfl
    omega
  have hscan : scanW initDictLen initCodeLen ((resetDict st initDictLen).pLZWData) =
      wInit initDictLen initCodeLen := by
    show scanW initDictLen initCodeLen (st.pLZWData ++ [initDictLen]) = _
    rw [scanW_append]
    simp only [List.foldl_cons, List.foldl_nil]
    exact widthStep_clear _ _ _
  have hfit : initDictLen <
      2 ^ writeLen initDictLen (scanW initDictLen initCodeLen st.pLZWData) := by
    have := clear_end_fit initDictLen initCodeLen _ h1 h2 hW
    omega
  refine ⟨?_, ?_, Nat.le_refl _, hidlM, ?_, ?_, ?_, ?_⟩
  · show codesOK initDictLen initCodeLen (wInit initDictLen initCodeLen)
      (st.pLZWData ++ [initDictLen])
    rw [codesOK_append]
    exact ⟨hOK, hfit, trivial⟩
  · rw [hscan]
    exact wInit_WInv _ _ h1 (by omega) h3
  · rw [hscan]
    exact Nat.le_refl _
  · intro p c
    exact Or.inl rfl
  · intro p
    exact Or.inl rfl
  · intro p s hne
    exact absurd rfl hne

theorem lzw_crawl_tree_loop_EncInv (initDictLen initCodeLen : Nat)
    (h1 : initDictLen = 2 ^ (initCodeLen - 1)) (h2 : 2 ≤ initCodeLen)
    (h3 : initCodeLen ≤ MAX_CODE_LEN) :
    ∀ (rest : List Nat) (st : LZWGenState) (p : Nat) (st' : LZWGenState)
      (rem : List Nat),
      EncInv initDictLen initCodeLen st →
      (p < initDictLen ∨ (initDictLen + 2 ≤ p ∧ p < st.dictPos)) →
      lzw_crawl_tree_loop initDictLen st p rest = .ok (st', rem) →
      EncInv initDictLen initCodeLen st' := by
  intro rest
  induction rest with
  | nil =>
    intro st p st' rem hInv hp h
    simp only [lzw_crawl_tree_loop] at h
    cases h
    obtain ⟨hOK, hW, hd2, hdM, hsync, hInit, hChild, hMap⟩ := hInv
    obtain ⟨hOK2, hW2, hscan, hdp2⟩ :=
      emit_preserves _ _ st p h1 (by omega) h3 hOK hW hd2 hdM hsync hp
    refine ⟨hOK2, hW2, hd2, hdM, ?_, hInit, hChild, hMap⟩
    show st.dictPos ≤ initDictLen + 1 +
      (scanW initDictLen initCodeLen (st.pLZWData ++ [p])).dictPos
    rw [hdp2]
    omega
  | cons c rest ih =>
    intro st p st' rem hInv hp h
    simp only [lzw_crawl_tree_loop] at h
    split at h
    · cases h
    · split at h
      · rename_i hcl
        refine ih _ _ _ _ hInv ?_ h
        rcases hInv.2.2.2.2.2.2.1 p with hz | hok
        · exact absurd hz hcl.1
        · exact Or.inr hok
      · split at h
        · rename_i hm
          refine ih _ _ _ _ hInv ?_ h
          rcases hInv.2.2.2.2.2.2.2 p c hm.1 with hz | hok
          · exact absurd hz hm.2
          · exact Or.inr hok
        · cases h
          obtain ⟨hOK, hW, hd2, hdM, hsync, hInit, hChild, hMap⟩ := hInv
          obtain ⟨hOK2, hW2, hscan, hdp2⟩ :=
            emit_preserves _ _ st p h1 (by omega) h3 hOK hW hd2 hdM hsync hp
          split
          · rename_i hlt
            have hlt2 : st.dictPos < MAX_DICT_LEN := hlt
            obtain ⟨hInit2, hChild2, hMap2⟩ :=
              add_child_tables initDictLen
                ({ st with pLZWData := st.pLZWData ++ [p] }) p c hd2 hInit hChild hMap
            refine ⟨?_, ?_, ?_, ?_, ?_, ?_, ?_, ?_⟩
            · rw [add_child_pLZWData]
              exact hOK2
            · rw [add_child_pLZWData]
              exact hW2
            · rw [add_child_dictPos]
              show initDictLen + 2 ≤ st.dictPos + 1
              omega
            · rw [add_child_dictPos]
              show st.dictPos + 1 ≤ MAX_DICT_LEN
              omega
            · rw [add_child_dictPos, add_child_pLZWData]
              show st.dictPos + 1 ≤ initDictLen + 1 +
                (scanW initDictLen initCodeLen (st.pLZWData ++ [p])).dictPos
              rw [hdp2]
              omega
            · simp only [add_child_dictPos]
              exact hInit2
            · simp only [add_child_dictPos]
              exact hChild2
            · simp only [add_child_dictPos]
              exact hMap2
          · exact reset_preserves _ _ _ h1 h2 h3 hOK2 hW2

theorem lzw_crawl_tree_EncInv (initDictLen initCodeLen : Nat)
    (h1 : initDictLen = 2 ^ (initCodeLen - 1)) (h2 : 2 ≤ initCodeLen)
    (h3 : initCodeLen ≤ MAX_CODE_LEN) (rest : List Nat) (st : LZWGenState)
    (p : Nat) (st' : LZWGenState) (rem : List Nat)
    (hInv : EncInv initDictLen initCodeLen st)
    (h : lzw_crawl_tree initDictLen st p rest = .ok (st', rem)) :
    EncInv initDictLen initCodeLen st' := by
  cases rest with
  | nil =>
    simp only [lzw_crawl_tree] at h
    split at h
    · cases h
    · rename_i hplt
      exact lzw_crawl_tree_loop_EncInv _ _ h1 h2 h3 _ _ _ _ _ hInv (Or.inl (by omega)) h
  | cons c rest =>
    simp only [lzw_crawl_tree] at h
    split at h
    · cases h
    · split at h
      · cases h
      · rename_i hplt hclt
        split at h
        · rename_i hdense
          refine lzw_crawl_tree_loop_EncInv _ _ h1 h2 h3 _ _ _ _ _ hInv ?_ h
          rcases hInv.2.2.2.2.2.1 p c with hz | hok
          · exact absurd hz hdense
          · exact Or.inr hok
        · cases h
          obtain ⟨hOK, hW, hd2, hdM, hsync, hInit, hChild, hMap⟩ := hInv
          obtain ⟨hOK2, hW2, hscan, hdp2⟩ :=
            emit_preserves _ _ st p h1 (by omega) h3 hOK hW hd2 hdM hsync
              (Or.inl (by omega))
          split
          · rename_i hlt
            have hlt2 : st.dictPos < MAX_DICT_LEN := hlt
            refine ⟨hOK2, hW2, ?_, ?_, ?_, ?_, ?_, ?_⟩
            · show initDictLen + 2 ≤ st.dictPos + 1
              omega
            · show st.dictPos + 1 ≤ MAX_DICT_LEN
              omega
            · show st.dictPos + 1 ≤ initDictLen + 1 +
                (scanW initDictLen initCodeLen (st.pLZWData ++ [p])).dictPos
              rw [hdp2]
              omega
            · intro q d
              show okCode initDictLen (st.dictPos + 1)
                (upd2 st.pTreeInit p c st.dictPos q d)
              by_cases hqd : q = p ∧ d = c
              · rw [hqd.1, hqd.2, upd2_eq]
                exact Or.inr ⟨hd2, by omega⟩
              · rw [upd2_ne _ _ _ _ _ _ hqd]
                exact okCode_mono _ _ _ _ (hInit q d) (by omega)
            · intro q
              show okCode initDictLen (st.dictPos + 1) (st.pTreeListChild q)
              exact okCode_mono _ _ _ _ (hChild q) (by omega)
            · intro q s hne
              show okCode initDictLen (st.dictPos + 1)
                (st.pTreeMap (st.pTreeListMap q - 1) s)
              exact okCode_mono _ _ _ _ (hMap q s hne) (by omega)
          · exact reset_preserves _ _ _ h1 h2 h3 hOK2 hW2

theorem lzw_generate_loop_EncInv (initDictLen initCodeLen : Nat)
    (h1 : initDictLen = 2 ^ (initCodeLen - 1)) (h2 : 2 ≤ initCodeLen)
    (h3 : initCodeLen ≤ MAX_CODE_LEN) (st : LZWGenState) (syms : List Nat)
    (st' : LZWGenState) (hInv : EncInv initDictLen initCodeLen st)
    (h : lzw_generate_loop initDictLen st syms = .ok st') :
    EncInv initDictLen initCodeLen st' := by
  induction st, syms using lzw_generate_loop.induct initDictLen with
  | case1 st =>
    rw [lzw_generate_loop_nil] at h
    cases h
    exact hInv
  | case2 st c rest e he =>
    rw [lzw_generate_loop_cons, he] at h
    cases h
  | case3 st c rest stm rem he ih =>
    rw [lzw_generate_loop_cons, he] at h
    exact ih (lzw_crawl_tree_EncInv _ _ h1 h2 h3 _ _ _ _ _ hInv he) h

theorem lzw_generate_codesOK (initDictLen initCodeLen : Nat)
    (h1 : initDictLen = 2 ^ (initCodeLen - 1)) (h2 : 2 ≤ initCodeLen)
    (h3 : initCodeLen ≤ MAX_CODE_LEN) (syms codes : List Nat)
    (henc : lzw_generate initDictLen syms = .ok codes) :
    codesOK initDictLen initCodeLen (wInit initDictLen initCodeLen) codes := by
  simp only [lzw_generate] at henc
  split at henc
  · cases henc
  · rename_i stf hloop
    cases henc
    have hInv0 : EncInv initDictLen initCodeLen
        (resetDict
          { pTreeInit := fun _ _ => 0, pTreeListMap := fun _ => 0,
            pTreeListSym := fun _ => 0, pTreeListChild := fun _ => 0,
            pTreeMap := fun _ _ => 0, pLZWData := [], dictPos := 0, mapPos := 0 }
          initDictLen) := by
      refine reset_preserves _ _ _ h1 h2 h3 trivial ?_
      show WInv initDictLen initCodeLen (wInit initDictLen initCodeLen)
      exact wInit_WInv _ _ h1 (by omega) h3
    have hInvf := lzw_generate_loop_EncInv _ _ h1 h2 h3 _ _ _ hInv0 hloop
    obtain ⟨hOK, hW, _, _, _, _, _, _⟩ := hInvf
    rw [codesOK_append]
    refine ⟨hOK, ?_, trivial⟩
    exact clear_end_fit _ _ _ h1 h2 hW

theorem codesOK_get (initDictLen initCodeLen : Nat) :
    ∀ (cs : List Nat) (w : WState), codesOK initDictLen initCodeLen w cs →
      ∀ (i : Nat) (hi : i < cs.length),
        cs.get ⟨i, hi⟩ <
          2 ^ writeLen initDictLen
            (List.foldl (widthStep initDictLen initCodeLen) w (cs.take i)) := by
  intro cs
  induction cs with
  | nil =>
    intro w _ i hi
    simp at hi
  | cons c cs ih =>
    intro w hOK i hi
    obtain ⟨hc, hrest⟩ := hOK
    cases i with
    | zero =>
      simpa using hc
    | succ i =>
      have := ih _ hrest i (by simpa using hi)
      simpa [List.take_succ_cons] using this

/-- C10: when the bit packer processes code `i` of a code stream produced by
`lzw_generate`, the code's value is strictly below `2^codeWidth` for the
width current at that moment (after the growth check at the top of that
iteration), so the byte-level shifts drop no high-order bits. -/
theorem C10_codes_fit_width (initDictLen initCodeLen : Nat) (syms codes : List Nat)
    (h1 : initDictLen = 2 ^ (initCodeLen - 1)) (h2 : 2 ≤ initCodeLen)
    (h3 : initCodeLen ≤ MAX_CODE_LEN)
    (henc : lzw_generate initDictLen syms = .ok codes) :
    ∀ (i : Nat) (hi : i < codes.length),
      codes.get ⟨i, hi⟩ <
        2 ^ writeLen initDictLen
          (projW (List.foldl (packStep initDictLen initCodeLen)
            (packInit initDictLen initCodeLen) (codes.take i))) := by
  intro i hi
  rw [foldl_packStep_projW]
  exact codesOK_get _ _ codes _
    (lzw_generate_codesOK _ _ h1 h2 h3 syms codes henc) i hi

/-- Witness for `C10_codes_fit_width` on the one-symbol input `[0]`. -/
theorem C10_codes_fit_width_witness :
    ((256 : Nat) = 2 ^ (9 - 1) ∧ 2 ≤ 9 ∧ 9 ≤ MAX_CODE_LEN ∧
     lzw_generate 256 [0] = .ok [256, 0, 257]) ∧
    (∀ (i : Nat) (hi : i < ([256, 0, 257] : List Nat).length),
      ([256, 0, 257] : List Nat).get ⟨i, hi⟩ <
        2 ^ writeLen 256
          (projW (List.foldl (packStep 256 9) (packInit 256 9)
            (([256, 0, 257] : List Nat).take i)))) := by
  have henc : lzw_generate 256 [0] = .ok [256, 0, 257] := by
    simp [lzw_generate, lzw_generate_loop, resetDict, lzw_crawl_tree,
      lzw_crawl_tree_loop]
  exact ⟨⟨by decide, by decide, by decide, henc⟩,
    C10_codes_fit_width 256 9 [0] _ (by decide) (by decide) (by decide) henc⟩

/-! ### Bit-level behaviour of the packer (towards C1) -/

theorem toBitsLSB_length : ∀ (w v : Nat), (toBitsLSB w v).length = w := by
  intro w
  induction w with
  | zero => intro v; rfl
  | succ w ih =>
    intro v
    simp [toBitsLSB, ih]

theorem bitsVal_toBitsLSB : ∀ (w v : Nat), v < 2 ^ w → bitsVal (toBitsLSB w v) = v := by
  intro w
  induction w with
  | zero =>
    intro v h
    simp only [Nat.pow_zero] at h
    interval_cases v
    rfl
  | succ w ih =>
    intro v h
    have hd : v / 2 < 2 ^ w := by
      rw [Nat.pow_succ] at h
      omega
    simp only [toBitsLSB, bitsVal, ih (v / 2) hd]
    split <;> rename_i hm
    · simp only [decide_eq_true_eq] at hm
      omega
    · simp only [decide_eq_true_eq] at hm
      omega

theorem toBitsLSB_split : ∀ (a v b : Nat),
    toBitsLSB (a + b) v = toBitsLSB a (v % 2 ^ a) ++ toBitsLSB b (v / 2 ^ a) := by
  intro a
  induction a with
  | zero =>
    intro v b
    simp [toBitsLSB]
  | succ a ih =>
    intro v b
    have hsucc : a + 1 + b = (a + b) + 1 := by omega
    rw [hsucc]
    have h1 : v % 2 ^ (a + 1) % 2 = v % 2 :=
      Nat.mod_mod_of_dvd v (dvd_pow_self 2 (Nat.succ_ne_zero a))
    have h2 : v % 2 ^ (a + 1) / 2 = v / 2 % 2 ^ a := by
      rw [Nat.pow_succ']
      exact Nat.mod_mul_right_div_self v 2 (2 ^ a)
    have h3 : v / 2 ^ (a + 1) = v / 2 / 2 ^ a := by
      rw [Nat.pow_succ']
      rw [Nat.div_div_eq_div_mul]
    simp only [toBitsLSB, ih (v / 2) b, h1, h2, h3, List.cons_append]

theorem or_mod_two (a b : Nat) : (a ||| b) % 2 = a % 2 ||| b % 2 := by
  rcases Nat.mod_two_eq_zero_or_one a with ha | ha <;>
  rcases Nat.mod_two_eq_zero_or_one b with hb | hb <;>
  · have ta := Nat.testBit_lor a b 0
    simp only [Nat.testBit_zero, ha, hb] at ta ⊢
    rcases Nat.mod_two_eq_zero_or_one (a ||| b) with hab | hab <;> simp_all

theorem lor_low : ∀ (k a b : Nat), a < 2 ^ k → a ||| b * 2 ^ k = a + b * 2 ^ k := by
  intro k
  induction k with
  | zero =>
    intro a b h
    have : a = 0 := by omega
    subst this
    simp
  | succ k ih =>
    intro a b h
    have hc : (b * 2 ^ (k + 1)) % 2 = 0 := by
      rw [Nat.pow_succ, ← Nat.mul_assoc]
      exact Nat.mul_mod_left _ 2
    have hmod : (a ||| b * 2 ^ (k + 1)) % 2 = a % 2 := by
      rw [or_mod_two, hc]
      rcases Nat.mod_two_eq_zero_or_one a with h2 | h2 <;> rw [h2] <;> rfl
    have hdiv : (a ||| b * 2 ^ (k + 1)) / 2 = a / 2 + b * 2 ^ k := by
      rw [Nat.or_div_two]
      have hb2 : b * 2 ^ (k + 1) / 2 = b * 2 ^ k := by
        rw [Nat.pow_succ, ← Nat.mul_assoc]
        exact Nat.mul_div_cancel _ (by omega)
      rw [hb2]
      exact ih (a / 2) b (by rw [Nat.pow_succ] at h; omega)
    have hbb : b * 2 ^ (k + 1) = 2 * (b * 2 ^ k) := by
      rw [Nat.pow_succ]
      ring
    have hvm := Nat.div_add_mod (a ||| b * 2 ^ (k + 1)) 2
    rw [hmod, hdiv] at hvm
    omega

theorem toBitsLSB_combine (bo wl cur c : Nat) (hcur : cur < 2 ^ bo) :
    toBitsLSB (bo + wl) (cur + c * 2 ^ bo) = toBitsLSB bo cur ++ toBitsLSB wl c := by
  rw [toBitsLSB_split]
  have h1 : (cur + c * 2 ^ bo) % 2 ^ bo = cur := by
    rw [Nat.add_mul_mod_self_right]
    exact Nat.mod_eq_of_lt hcur
  have h2 : (cur + c * 2 ^ bo) / 2 ^ bo = c := by
    rw [Nat.add_mul_div_right _ _ (Nat.pos_pow_of_pos bo (by omega))]
    rw [Nat.div_eq_of_lt hcur]
    omega
  rw [h1, h2]

theorem flatten_snoc_byte (acc : List Nat) (b : Nat) :
    ((acc ++ [b]).map byteToBitsLSB).flatten =
      (acc.map byteToBitsLSB).flatten ++ toBitsLSB 8 b := by
  simp [byteToBitsLSB]

/-- The value arithmetic of one byte-writing step of the packer: writing the
`wl` low bits of `c` at bit offset `bo` on top of the partial byte `cur`. -/
theorem write_phase_core (cur bo wl c : Nat)
    (hbo : bo < 8) (hcur : cur < 2 ^ bo) (hwl1 : 1 ≤ wl) (hwl13 : wl ≤ 13)
    (hc : c < 2 ^ wl) :
    cur ||| (c <<< bo) % 256 = (cur + c * 2 ^ bo) % 256 ∧
    (c >>> (8 - bo)) = (cur + c * 2 ^ bo) / 256 ∧
    (c >>> (16 - bo)) = (cur + c * 2 ^ bo) / 65536 ∧
    cur + c * 2 ^ bo < 2 ^ (bo + wl) ∧
    toBitsLSB (bo + wl) (cur + c * 2 ^ bo) = toBitsLSB bo cur ++ toBitsLSB wl c := by
  have hshift : c <<< bo = c * 2 ^ bo := Nat.shiftLeft_eq c bo
  have hpow : (2 : Nat) ^ (bo + wl) = 2 ^ bo * 2 ^ wl := pow_add 2 bo wl
  have e2 : c * 2 ^ bo = 2 ^ bo * c := Nat.mul_comm _ _
  have e1 : 2 ^ bo * (c + 1) = 2 ^ bo * c + 2 ^ bo := Nat.mul_succ _ _
  have h2c : 2 ^ bo * (c + 1) ≤ 2 ^ bo * 2 ^ wl := Nat.mul_le_mul_left _ hc
  have hVlt : cur + c * 2 ^ bo < 2 ^ (bo + wl) := by
    rw [hpow]
    omega
  have hVdiv : (cur + c * 2 ^ bo) / 2 ^ bo = c := by
    rw [Nat.add_mul_div_right _ _ (Nat.pos_pow_of_pos bo (by omega))]
    rw [Nat.div_eq_of_lt hcur]
    omega
  have h256 : (2 : Nat) ^ (8 - bo) * 2 ^ bo = 256 := by
    rw [← pow_add]
    rw [show 8 - bo + bo = 8 by omega]
    norm_num
  have h65536 : (2 : Nat) ^ (16 - bo) * 2 ^ bo = 65536 := by
    rw [← pow_add]
    rw [show 16 - bo + bo = 16 by omega]
    norm_num
  have hcur256 : cur < 256 := by
    have hb : (2 : Nat) ^ bo ≤ 2 ^ 7 := Nat.pow_le_pow_right (by omega) (by omega)
    norm_num at hb
    omega
  refine ⟨?_, ?_, ?_, hVlt, toBitsLSB_combine bo wl cur c hcur⟩
  · rw [hshift]
    have hm : (c * 2 ^ bo) % 256 = c % 2 ^ (8 - bo) * 2 ^ bo := by
      rw [← h256, Nat.mul_mod_mul_right]
    have hor := lor_low bo cur (c % 2 ^ (8 - bo)) hcur
    have hml : c % 2 ^ (8 - bo) < 2 ^ (8 - bo) :=
      Nat.mod_lt _ (Nat.pos_pow_of_pos _ (by omega))
    have hb1 : (c % 2 ^ (8 - bo) + 1) * 2 ^ bo ≤ 2 ^ (8 - bo) * 2 ^ bo :=
      Nat.mul_le_mul_right _ hml
    have hb2 : (c % 2 ^ (8 - bo) + 1) * 2 ^ bo = c % 2 ^ (8 - bo) * 2 ^ bo + 2 ^ bo :=
      Nat.succ_mul _ _
    have hlt256 : cur + c % 2 ^ (8 - bo) * 2 ^ bo < 256 := by omega
    rw [hm, hor, Nat.add_mod, Nat.mod_eq_of_lt hcur256, hm, Nat.mod_eq_of_lt hlt256]
  · rw [Nat.shiftRight_eq_div_pow]
    rw [show (256 : Nat) = 2 ^ bo * 2 ^ (8 - bo) from by rw [Nat.mul_comm]; exact h256.symm]
    rw [← Nat.div_div_eq_div_mul, hVdiv]
  · rw [Nat.shiftRight_eq_div_pow]
    rw [show (65536 : Nat) = 2 ^ bo * 2 ^ (16 - bo) from by rw [Nat.mul_comm]; exact h65536.symm]
    rw [← Nat.div_div_eq_div_mul, hVdiv]

theorem packStep_acc (initDictLen initCodeLen : Nat) (st : PackState) (c : Nat) :
    (packStep initDictLen initCodeLen st c).acc =
      (if writeLen initDictLen (projW st) + st.bitOffset < 8 then st.acc
       else if writeLen initDictLen (projW st) + st.bitOffset < 16 then
         st.acc ++ [st.cur ||| (c <<< st.bitOffset) % 256]
       else st.acc ++ [st.cur ||| (c <<< st.bitOffset) % 256,
         (c >>> (8 - st.bitOffset)) % 256]) := by
  by_cases hg : st.lzwCodeLen < MAX_CODE_LEN ∧ st.n - initDictLen = st.dictPos
  · have hwl : writeLen initDictLen (projW st) = st.lzwCodeLen + 1 := by
      simp only [writeLen, projW]
      rw [if_pos hg]
    rw [hwl]
    simp only [packStep]
    rw [if_pos hg]
    dsimp only
    split_ifs <;> first | rfl | omega
  · have hwl : writeLen initDictLen (projW st) = st.lzwCodeLen := by
      simp only [writeLen, projW]
      rw [if_neg hg]
    rw [hwl]
    simp only [packStep]
    rw [if_neg hg]
    split_ifs <;> first | rfl | omega

theorem packStep_cur (initDictLen initCodeLen : Nat) (st : PackState) (c : Nat) :
    (packStep initDictLen initCodeLen st c).cur =
      (if writeLen initDictLen (projW st) + st.bitOffset < 8 then
         st.cur ||| (c <<< st.bitOffset) % 256
       else if writeLen initDictLen (projW st) + st.bitOffset = 8 then 0
       else if writeLen initDictLen (projW st) + st.bitOffset < 16 then
         (c >>> (8 - st.bitOffset)) % 256
       else if writeLen initDictLen (projW st) + st.bitOffset = 16 then 0
       else (c >>> (16 - st.bitOffset)) % 256) := by
  by_cases hg : st.lzwCodeLen < MAX_CODE_LEN ∧ st.n - initDictLen = st.dictPos
  · have hwl : writeLen initDictLen (projW st) = st.lzwCodeLen + 1 := by
      simp only [writeLen, projW]
      rw [if_pos hg]
    rw [hwl]
    simp only [packStep]
    rw [if_pos hg]
    dsimp only
    split_ifs <;> first | rfl | omega
  · have hwl : writeLen initDictLen (projW st) = st.lzwCodeLen := by
      simp only [writeLen, projW]
      rw [if_neg hg]
    rw [hwl]
    simp only [packStep]
    rw [if_neg hg]
    split_ifs <;> first | rfl | omega

theorem packStep_bitOffset (initDictLen initCodeLen : Nat) (st : PackState) (c : Nat) :
    (packStep initDictLen initCodeLen st c).bitOffset =
      (writeLen initDictLen (projW st) + st.bitOffset) % 8 := by
  by_cases hg : st.lzwCodeLen < MAX_CODE_LEN ∧ st.n - initDictLen = st.dictPos
  · have hwl : writeLen initDictLen (projW st) = st.lzwCodeLen + 1 := by
      simp only [writeLen, projW]
      rw [if_pos hg]
    rw [hwl]
    simp only [packStep]
    rw [if_pos hg]
    dsimp only
    split_ifs <;> first | rfl | omega
  · have hwl : writeLen initDictLen (projW st) = st.lzwCodeLen := by
      simp only [writeLen, projW]
      rw [if_neg hg]
    rw [hwl]
    simp only [packStep]
    rw [if_neg hg]
    split_ifs <;> first | rfl | omega

theorem packStep_correctLater (initDictLen initCodeLen : Nat) (st : PackState) (c : Nat) :
    (packStep initDictLen initCodeLen st c).correctLater =
      (if writeLen initDictLen (projW st) + st.bitOffset < 8 then false
       else if writeLen initDictLen (projW st) + st.bitOffset = 8 then true
       else if writeLen initDictLen (projW st) + st.bitOffset < 16 then false
       else if writeLen initDictLen (projW st) + st.bitOffset = 16 then true
       else false) := by
  by_cases hg : st.lzwCodeLen < MAX_CODE_LEN ∧ st.n - initDictLen = st.dictPos
  · have hwl : writeLen initDictLen (projW st) = st.lzwCodeLen + 1 := by
      simp only [writeLen, projW]
      rw [if_pos hg]
    rw [hwl]
    simp only [packStep]
    rw [if_pos hg]
    dsimp only
    split_ifs <;> first | rfl | omega
  · have hwl : writeLen initDictLen (projW st) = st.lzwCodeLen := by
      simp only [writeLen, projW]
      rw [if_neg hg]
    rw [hwl]
    simp only [packStep]
    rw [if_neg hg]
    split_ifs <;> first | rfl | omega

theorem flatten_snoc2_byte (acc : List Nat) (b1 b2 : Nat) :
    ((acc ++ [b1, b2]).map byteToBitsLSB).flatten =
      (acc.map byteToBitsLSB).flatten ++ (toBitsLSB 8 b1 ++ toBitsLSB 8 b2) := by
  rw [show acc ++ [b1, b2] = (acc ++ [b1]) ++ [b2] by simp,
    flatten_snoc_byte, flatten_snoc_byte, List.append_assoc]

/-- When one packing step sets `correctLater` (a byte boundary was reached
exactly), the partial byte is empty. -/
theorem packStep_correctLater_zero (initDictLen initCodeLen : Nat) (st : PackState)
    (c : Nat) (h : (packStep initDictLen initCodeLen st c).correctLater = true) :
    (packStep initDictLen initCodeLen st c).cur = 0 ∧
    (packStep initDictLen initCodeLen st c).bitOffset = 0 := by
  rw [packStep_correctLater] at h
  rw [packStep_cur, packStep_bitOffset]
  split_ifs at h ⊢ <;> first | exact ⟨rfl, by omega⟩ | simp at h | omega

/-- The bit-level effect of writing one `wl`-bit code at offset `bo`: the
accumulated bits (flattened finished bytes followed by the partial byte's
bits) grow by exactly the code's `wl` low bits, the offset stays the bit
count modulo 8, and the partial byte stays below `2^offset`. -/
theorem pack_write_bits (wl bo cu c : Nat) (A : List Nat) (B : List Bool)
    (hflat : (A.map byteToBitsLSB).flatten ++ toBitsLSB bo cu = B)
    (hoff : bo = B.length % 8) (hcur : cu < 2 ^ bo)
    (hwl1 : 1 ≤ wl) (hwl13 : wl ≤ 13) (hc : c < 2 ^ wl) :
    (((if wl + bo < 8 then A
        else if wl + bo < 16 then A ++ [cu ||| (c <<< bo) % 256]
        else A ++ [cu ||| (c <<< bo) % 256,
          (c >>> (8 - bo)) % 256]).map byteToBitsLSB).flatten ++
      toBitsLSB ((wl + bo) % 8)
        (if wl + bo < 8 then cu ||| (c <<< bo) % 256
         else if wl + bo = 8 then 0
         else if wl + bo < 16 then (c >>> (8 - bo)) % 256
         else if wl + bo = 16 then 0
         else (c >>> (16 - bo)) % 256) = B ++ toBitsLSB wl c) ∧
    ((wl + bo) % 8 = (B ++ toBitsLSB wl c).length % 8) ∧
    ((if wl + bo < 8 then cu ||| (c <<< bo) % 256
      else if wl + bo = 8 then 0
      else if wl + bo < 16 then (c >>> (8 - bo)) % 256
      else if wl + bo = 16 then 0
      else (c >>> (16 - bo)) % 256) < 2 ^ ((wl + bo) % 8)) := by
  have hbo : bo < 8 := by omega
  obtain ⟨hb0, hb1, hb2, hVlt, hVsplit⟩ := write_phase_core cu bo wl c hbo hcur hwl1 hwl13 hc
  set V := cu + c * 2 ^ bo with hV
  have hlen : (B ++ toBitsLSB wl c).length = B.length + wl := by
    simp [toBitsLSB_length]
  by_cases h1 : wl + bo < 8
  · simp only [if_pos h1]
    have hmod : (wl + bo) % 8 = wl + bo := Nat.mod_eq_of_lt h1
    have hVle : V < 256 := by
      have hp : (2 : Nat) ^ (bo + wl) ≤ 2 ^ 7 := Nat.pow_le_pow_right (by omega) (by omega)
      have h27 : (2 : Nat) ^ 7 = 128 := by norm_num
      omega
    refine ⟨?_, ?_, ?_⟩
    · rw [hmod, hb0, Nat.mod_eq_of_lt hVle, Nat.add_comm wl bo, hVsplit,
        ← List.append_assoc, hflat]
    · rw [hlen]; omega
    · rw [hmod, hb0, Nat.mod_eq_of_lt hVle, Nat.add_comm wl bo]
      exact hVlt
  · by_cases h2 : wl + bo = 8
    · simp only [if_neg h1, if_pos h2, if_pos (show wl + bo < 16 by omega)]
      have hmod0 : (wl + bo) % 8 = 0 := by omega
      have hVle : V < 256 := by
        have hbw : bo + wl = 8 := by omega
        rw [hbw] at hVlt
        norm_num at hVlt
        omega
      have h8eq : toBitsLSB 8 V = toBitsLSB bo cu ++ toBitsLSB wl c := by
        have hk : (8 : Nat) = bo + wl := by omega
        conv_lhs => rw [hk]
        exact hVsplit
      refine ⟨?_, ?_, ?_⟩
      · rw [hmod0, show toBitsLSB 0 0 = ([] : List Bool) from rfl, List.append_nil,
          flatten_snoc_byte, hb0, Nat.mod_eq_of_lt hVle, h8eq,
          ← List.append_assoc, hflat]
      · rw [hlen]; omega
      · rw [hmod0]
        exact Nat.pos_pow_of_pos _ (by omega)
    · by_cases h3 : wl + bo < 16
      · simp only [if_neg h1, if_neg h2, if_pos h3]
        have hmod : (wl + bo) % 8 = wl + bo - 8 := by omega
        have hpow : (2 : Nat) ^ (bo + wl) = 256 * 2 ^ (bo + wl - 8) := by
          have hk : bo + wl = 8 + (bo + wl - 8) := by omega
          conv_lhs => rw [hk]
          rw [pow_add]; norm_num
        have hdivlt : V / 256 < 2 ^ (bo + wl - 8) := by
          rw [Nat.div_lt_iff_lt_mul (show 0 < 256 by norm_num)]
          omega
        have hdle : V / 256 < 256 := by
          have hp : (2 : Nat) ^ (bo + wl - 8) ≤ 2 ^ 7 := Nat.pow_le_pow_right (by omega) (by omega)
          have h27 : (2 : Nat) ^ 7 = 128 := by norm_num
          omega
        have hsplit8 : toBitsLSB (bo + wl) V =
            toBitsLSB 8 (V % 256) ++ toBitsLSB (bo + wl - 8) (V / 256) := by
          have hk : bo + wl = 8 + (bo + wl - 8) := by omega
          conv_lhs => rw [hk, toBitsLSB_split]
          norm_num
        refine ⟨?_, ?_, ?_⟩
        · rw [hmod, flatten_snoc_byte, hb0, hb1, Nat.mod_eq_of_lt hdle,
            show wl + bo - 8 = bo + wl - 8 by omega, List.append_assoc,
            ← hsplit8, hVsplit, ← List.append_assoc, hflat]
        · rw [hlen]; omega
        · rw [hmod, hb1, Nat.mod_eq_of_lt hdle,
            show wl + bo - 8 = bo + wl - 8 by omega]
          exact hdivlt
      · by_cases h4 : wl + bo = 16
        · simp only [if_neg h1, if_neg h2, if_neg h3, if_pos h4]
          have hmod0 : (wl + bo) % 8 = 0 := by omega
          have hVle : V < 65536 := by
            have hbw : bo + wl = 16 := by omega
            rw [hbw] at hVlt
            norm_num at hVlt
            omega
          have hdle : V / 256 < 256 := by omega
          have hsplit16 : toBitsLSB (bo + wl) V =
              toBitsLSB 8 (V % 256) ++ toBitsLSB 8 (V / 256) := by
            have hk : bo + wl = 8 + 8 := by omega
            conv_lhs => rw [hk, toBitsLSB_split]
            norm_num
          refine ⟨?_, ?_, ?_⟩
          · rw [hmod0, show toBitsLSB 0 0 = ([] : List Bool) from rfl, List.append_nil,
              flatten_snoc2_byte, hb0, hb1, Nat.mod_eq_of_lt hdle,
              ← hsplit16, hVsplit, ← List.append_assoc, hflat]
          · rw [hlen]; omega
          · rw [hmod0]
            exact Nat.pos_pow_of_pos _ (by omega)
        · simp only [if_neg h1, if_neg h2, if_neg h3, if_neg h4]
          have h16lt : 16 < wl + bo := by omega
          have hmod : (wl + bo) % 8 = wl + bo - 16 := by omega
          have hpow : (2 : Nat) ^ (bo + wl) = 65536 * 2 ^ (bo + wl - 16) := by
            have hk : bo + wl = 16 + (bo + wl - 16) := by omega
            conv_lhs => rw [hk]
            rw [pow_add]; norm_num
          have hdivlt : V / 65536 < 2 ^ (bo + wl - 16) := by
            rw [Nat.div_lt_iff_lt_mul (show 0 < 65536 by norm_num)]
            omega
          have hdle : V / 65536 < 256 := by
            have hp : (2 : Nat) ^ (bo + wl - 16) ≤ 2 ^ 4 := Nat.pow_le_pow_right (by omega) (by omega)
            have h24 : (2 : Nat) ^ 4 = 16 := by norm_num
            omega
          have hd256 : V / 256 / 256 = V / 65536 := by
            rw [Nat.div_div_eq_div_mul]
          have hsplitA : toBitsLSB (bo + wl) V =
              toBitsLSB 8 (V % 256) ++ toBitsLSB (bo + wl - 8) (V / 256) := by
            have hk : bo + wl = 8 + (bo + wl - 8) := by omega
            conv_lhs => rw [hk, toBitsLSB_split]
            norm_num
          have hsplitB : toBitsLSB (bo + wl - 8) (V / 256) =
              toBitsLSB 8 (V / 256 % 256) ++ toBitsLSB (bo + wl - 16) (V / 65536) := by
            have hk : bo + wl - 8 = 8 + (bo + wl - 16) := by omega
            conv_lhs => rw [hk, toBitsLSB_split]
            norm_num
            rw [hd256]
          refine ⟨?_, ?_, ?_⟩
          · rw [hmod, flatten_snoc2_byte, hb0, hb1, hb2, Nat.mod_eq_of_lt hdle,
              show wl + bo - 16 = bo + wl - 16 by omega, List.append_assoc,
              List.append_assoc, ← hsplitB, ← hsplitA, hVsplit,
              ← List.append_assoc, hflat]
          · rw [hlen]; omega
          · rw [hmod, hb2, Nat.mod_eq_of_lt hdle,
              show wl + bo - 16 = bo + wl - 16 by omega]
            exact hdivlt

/-- One packing step, phrased on `packStep` itself: the accumulated bit
stream grows by the code's bits at the current write width. -/
theorem packStep_bits (initDictLen initCodeLen : Nat) (st : PackState) (c : Nat)
    (B : List Bool)
    (hflat : (st.acc.map byteToBitsLSB).flatten ++ toBitsLSB st.bitOffset st.cur = B)
    (hoff : st.bitOffset = B.length % 8)
    (hcur : st.cur < 2 ^ st.bitOffset)
    (hwl1 : 1 ≤ writeLen initDictLen (projW st))
    (hwl13 : writeLen initDictLen (projW st) ≤ 13)
    (hc : c < 2 ^ writeLen initDictLen (projW st)) :
    ((packStep initDictLen initCodeLen st c).acc.map byteToBitsLSB).flatten ++
        toBitsLSB (packStep initDictLen initCodeLen st c).bitOffset
          (packStep initDictLen initCodeLen st c).cur =
      B ++ toBitsLSB (writeLen initDictLen (projW st)) c ∧
    (packStep initDictLen initCodeLen st c).bitOffset =
      (B ++ toBitsLSB (writeLen initDictLen (projW st)) c).length % 8 ∧
    (packStep initDictLen initCodeLen st c).cur <
      2 ^ (packStep initDictLen initCodeLen st c).bitOffset := by
  rw [packStep_acc, packStep_cur, packStep_bitOffset]
  exact pack_write_bits (writeLen initDictLen (projW st)) st.bitOffset st.cur c
    st.acc B hflat hoff hcur hwl1 hwl13 hc

/-- The packing loop writes exactly `codeBits`: folding `packStep` over a
code stream that fits the width schedule appends the streams' bits at their
write widths to the accumulated bit stream. -/
theorem foldl_packStep_bits (initDictLen initCodeLen : Nat)
    (h1 : initDictLen = 2 ^ (initCodeLen - 1)) (h2 : 1 ≤ initCodeLen)
    (h3 : initCodeLen ≤ MAX_CODE_LEN) (codes : List Nat) :
    ∀ (st : PackState) (B : List Bool),
      (st.acc.map byteToBitsLSB).flatten ++ toBitsLSB st.bitOffset st.cur = B →
      st.bitOffset = B.length % 8 →
      st.cur < 2 ^ st.bitOffset →
      (st.correctLater = true → st.cur = 0 ∧ st.bitOffset = 0) →
      WInv initDictLen initCodeLen (projW st) →
      codesOK initDictLen initCodeLen (projW st) codes →
      (((List.foldl (packStep initDictLen initCodeLen) st codes).acc.map byteToBitsLSB).flatten ++
          toBitsLSB (List.foldl (packStep initDictLen initCodeLen) st codes).bitOffset
            (List.foldl (packStep initDictLen initCodeLen) st codes).cur =
        B ++ codeBits initDictLen initCodeLen (projW st) codes) ∧
      (List.foldl (packStep initDictLen initCodeLen) st codes).bitOffset =
        (B ++ codeBits initDictLen initCodeLen (projW st) codes).length % 8 ∧
      (List.foldl (packStep initDictLen initCodeLen) st codes).cur <
        2 ^ (List.foldl (packStep initDictLen initCodeLen) st codes).bitOffset ∧
      ((List.foldl (packStep initDictLen initCodeLen) st codes).correctLater = true →
        (List.foldl (packStep initDictLen initCodeLen) st codes).cur = 0 ∧
        (List.foldl (packStep initDictLen initCodeLen) st codes).bitOffset = 0) := by
  induction codes with
  | nil =>
    intro st B hflat hoff hcur hcl _ _
    simp only [List.foldl_nil, codeBits, List.append_nil]
    exact ⟨hflat, hoff, hcur, hcl⟩
  | cons c cs ih =>
    intro st B hflat hoff hcur _ hWinv hok
    obtain ⟨hc, hok1⟩ := hok
    have hwl1 : 1 ≤ writeLen initDictLen (projW st) :=
      le_trans (le_trans h2 hWinv.2.1) (le_writeLen _ _)
    have hwl13 : writeLen initDictLen (projW st) ≤ 13 := by
      have hcap := hWinv.2.2.1
      have hM : MAX_CODE_LEN = 12 := rfl
      unfold writeLen
      split <;> omega
    obtain ⟨hflat1, hoff1, hcur1⟩ :=
      packStep_bits initDictLen initCodeLen st c B hflat hoff hcur hwl1 hwl13 hc
    have hW1 : WInv initDictLen initCodeLen (projW (packStep initDictLen initCodeLen st c)) := by
      rw [packStep_projW]
      exact widthStep_WInv _ _ h1 h2 h3 _ _ hWinv
    have hok2 : codesOK initDictLen initCodeLen (projW (packStep initDictLen initCodeLen st c)) cs := by
      rw [packStep_projW]
      exact hok1
    have hcl1 := packStep_correctLater_zero initDictLen initCodeLen st c
    have hrec := ih (packStep initDictLen initCodeLen st c)
      (B ++ toBitsLSB (writeLen initDictLen (projW st)) c)
      hflat1 hoff1 hcur1 (fun h => hcl1 h) hW1 hok2
    rw [packStep_projW] at hrec
    simp only [List.foldl_cons]
    rw [show codeBits initDictLen initCodeLen (projW st) (c :: cs) =
      toBitsLSB (writeLen initDictLen (projW st)) c ++
        codeBits initDictLen initCodeLen
          (widthStep initDictLen initCodeLen (projW st) c) cs from rfl]
    rw [← List.append_assoc]
    exact hrec

/-- `create_byte_list` packs a width-schedule-respecting code stream into
bytes whose bits are exactly the stream's `codeBits` followed by some final
padding within the last byte. -/
theorem create_byte_list_bits (codes : List Nat) (initDictLen initCodeLen : Nat)
    (h1 : initDictLen = 2 ^ (initCodeLen - 1)) (h2 : 1 ≤ initCodeLen)
    (h3 : initCodeLen ≤ MAX_CODE_LEN)
    (hok : codesOK initDictLen initCodeLen (wInit initDictLen initCodeLen) codes) :
    ∃ pad : List Bool,
      ((create_byte_list codes initDictLen initCodeLen).map byteToBitsLSB).flatten =
        codeBits initDictLen initCodeLen (wInit initDictLen initCodeLen) codes ++ pad := by
  have hproj : projW (packInit initDictLen initCodeLen) = wInit initDictLen initCodeLen := rfl
  have hstart := foldl_packStep_bits initDictLen initCodeLen h1 h2 h3 codes
    (packInit initDictLen initCodeLen) []
    rfl rfl (by norm_num [packInit])
    (fun h => by simp [packInit] at h)
    (by rw [hproj]; exact wInit_WInv _ _ h1 h2 h3)
    (by rw [hproj]; exact hok)
  rw [hproj] at hstart
  simp only [List.nil_append] at hstart
  obtain ⟨hflat, hoff, hcur, hcl⟩ := hstart
  simp only [create_byte_list]
  set st1 := List.foldl (packStep initDictLen initCodeLen)
    (packInit initDictLen initCodeLen) codes with hst1
  by_cases hcor : st1.correctLater
  · rw [if_pos hcor]
    obtain ⟨hz1, hz2⟩ := hcl hcor
    refine ⟨[], ?_⟩
    rw [List.append_nil]
    rw [hz1, hz2, show toBitsLSB 0 0 = ([] : List Bool) from rfl,
      List.append_nil] at hflat
    exact hflat
  · rw [if_neg hcor]
    have hbo8 : st1.bitOffset < 8 := by omega
    refine ⟨toBitsLSB (8 - st1.bitOffset) (st1.cur / 2 ^ st1.bitOffset), ?_⟩
    rw [flatten_snoc_byte]
    have hsplit : toBitsLSB 8 st1.cur =
        toBitsLSB st1.bitOffset st1.cur ++
          toBitsLSB (8 - st1.bitOffset) (st1.cur / 2 ^ st1.bitOffset) := by
      have hk : (8 : Nat) = st1.bitOffset + (8 - st1.bitOffset) := by omega
      conv_lhs => rw [hk, toBitsLSB_split]
      rw [Nat.mod_eq_of_lt hcur]
    rw [hsplit, ← List.append_assoc, hflat]

theorem codeBits_nil (initDictLen initCodeLen : Nat) (w : WState) :
    codeBits initDictLen initCodeLen w [] = [] := rfl

theorem codeBits_cons (initDictLen initCodeLen : Nat) (w : WState) (c : Nat)
    (cs : List Nat) :
    codeBits initDictLen initCodeLen w (c :: cs) =
      toBitsLSB (writeLen initDictLen w) c ++
        codeBits initDictLen initCodeLen (widthStep initDictLen initCodeLen w c) cs := rfl

theorem codeBits_append (initDictLen initCodeLen : Nat) :
    ∀ (X Y : List Nat) (w : WState),
      codeBits initDictLen initCodeLen w (X ++ Y) =
        codeBits initDictLen initCodeLen w X ++
          codeBits initDictLen initCodeLen
            (List.foldl (widthStep initDictLen initCodeLen) w X) Y := by
  intro X
  induction X with
  | nil => intro Y w; simp [codeBits_nil]
  | cons c cs ih =>
    intro Y w
    simp only [List.cons_append, codeBits_cons, List.foldl_cons, ih, List.append_assoc]

theorem decAddEntry_out (st : LZWDecState) (s : List Nat) :
    (decAddEntry st s).out = st.out := by
  simp only [decAddEntry]
  split_ifs <;> rfl

theorem decAddEntry_prev (st : LZWDecState) (s : List Nat) :
    (decAddEntry st s).prev = st.prev := by
  simp only [decAddEntry]
  split_ifs <;> rfl

theorem decAddEntry_nextCode (st : LZWDecState) (s : List Nat)
    (h : st.nextCode < 4096) :
    (decAddEntry st s).nextCode = st.nextCode + 1 := by
  simp only [decAddEntry, if_pos h]
  split_ifs <;> rfl

theorem decAddEntry_table (st : LZWDecState) (s : List Nat)
    (h : st.nextCode < 4096) :
    (decAddEntry st s).table = fun c => if c = st.nextCode then s else st.table c := by
  simp only [decAddEntry, if_pos h]
  split_ifs <;> rfl

theorem decAddEntry_codeLen (st : LZWDecState) (s : List Nat)
    (h : st.nextCode < 4096) :
    (decAddEntry st s).codeLen =
      if st.nextCode + 1 = 2 ^ st.codeLen ∧ st.codeLen < 12
      then st.codeLen + 1 else st.codeLen := by
  simp only [decAddEntry, if_pos h]
  split_ifs <;> rfl

/-- The packer grows the width at the write of the next code exactly when the
decoder grows it after assigning its next entry: both fire at the power-of-two
boundary `initDictLen + dictPos + 1 = 2^width`. -/
theorem width_sync_step (initDictLen initCodeLen : Nat) (W : WState) (vf : Nat)
    (hW : WInv initDictLen initCodeLen W) (hvf : vf ≠ initDictLen)
    (hi4 : 4 ≤ initDictLen) :
    (if initDictLen + W.dictPos + 1 = 2 ^ writeLen initDictLen W ∧
        writeLen initDictLen W < 12
     then writeLen initDictLen W + 1 else writeLen initDictLen W) =
      writeLen initDictLen (widthStep initDictLen initCodeLen W vf) := by
  have hb : (2 : Nat) ^ (W.lzwCodeLen + 1) = 2 * 2 ^ W.lzwCodeLen := by
    rw [Nat.pow_succ]; ring
  obtain ⟨hn, hicl, hcap, hdp, hfit⟩ := hW
  have hM : MAX_CODE_LEN = 12 := rfl
  by_cases hg : W.lzwCodeLen < MAX_CODE_LEN ∧ W.n - initDictLen = W.dictPos
  · have hwl : writeLen initDictLen W = W.lzwCodeLen + 1 := by
      unfold writeLen
      rw [if_pos hg]
    rw [hwl]
    simp only [widthStep, if_pos hg, if_neg hvf]
    unfold writeLen
    dsimp only
    split_ifs <;> omega
  · have hwl : writeLen initDictLen W = W.lzwCodeLen := by
      unfold writeLen
      rw [if_neg hg]
    rw [hwl]
    simp only [widthStep, if_neg hg, if_neg hvf]
    unfold writeLen
    dsimp only
    split_ifs <;> omega

theorem writeLen_wInit (initDictLen initCodeLen : Nat) (hi : 2 ≤ initDictLen) :
    writeLen initDictLen (wInit initDictLen initCodeLen) = initCodeLen := by
  unfold writeLen wInit
  dsimp only
  split_ifs <;> omega

theorem writeLen_widthStep_wInit (initDictLen initCodeLen vf : Nat)
    (hi : 3 ≤ initDictLen) (hvf : vf ≠ initDictLen) :
    writeLen initDictLen
      (widthStep initDictLen initCodeLen (wInit initDictLen initCodeLen) vf) =
      initCodeLen := by
  have hM : MAX_CODE_LEN = 12 := rfl
  have hg : ¬((wInit initDictLen initCodeLen).lzwCodeLen < MAX_CODE_LEN ∧
      (wInit initDictLen initCodeLen).n - initDictLen =
        (wInit initDictLen initCodeLen).dictPos) := by
    show ¬(initCodeLen < MAX_CODE_LEN ∧ 2 * initDictLen - initDictLen = 1)
    omega
  have hstep : widthStep initDictLen initCodeLen (wInit initDictLen initCodeLen) vf =
      { lzwCodeLen := initCodeLen, n := 2 * initDictLen, dictPos := 2 } := by
    simp only [widthStep, if_neg hg, if_neg hvf]
    rfl
  rw [hstep]
  unfold writeLen
  dsimp only
  split_ifs <;> omega

theorem headI_append_cons {m X Y : List Nat} {p : Nat}
    (h : m ++ X = p :: Y) (hne : m ≠ []) : m.headI = p := by
  cases m with
  | nil => exact absurd rfl hne
  | cons a t =>
    simp only [List.cons_append, List.cons.injEq] at h
    simp [h.1]

/-- Reading one `codeLen`-bit code from the front of the bit stream: the
decode loop consumes exactly the code's bits and dispatches on its value. -/
theorem lzw_decode_loop_read (clear ic0 fuel : Nat) (st : LZWDecState)
    (c : Nat) (B : List Bool) (hc : c < 2 ^ st.codeLen) (h0 : 0 < st.codeLen) :
    lzw_decode_loop clear ic0 (fuel + 1) st (toBitsLSB st.codeLen c ++ B) =
      (if c = clear then
        lzw_decode_loop clear ic0 fuel
          { table := decInitTable clear, nextCode := clear + 2,
            codeLen := ic0, prev := none, out := st.out } B
      else if c = clear + 1 then some st.out
      else match st.prev with
        | none =>
          if c < clear then
            lzw_decode_loop clear ic0 fuel
              { st with out := st.out ++ [c], prev := some [c] } B
          else none
        | some prevStr =>
          if c < st.nextCode then
            lzw_decode_loop clear ic0 fuel
              { decAddEntry st (prevStr ++ [(st.table c).headI]) with
                out := st.out ++ st.table c, prev := some (st.table c) } B
          else if c = st.nextCode then
            lzw_decode_loop clear ic0 fuel
              { decAddEntry st (prevStr ++ [prevStr.headI]) with
                out := st.out ++ (prevStr ++ [prevStr.headI]),
                prev := some (prevStr ++ [prevStr.headI]) } B
          else none) := by
  have hlen : st.codeLen ≤ (toBitsLSB st.codeLen c ++ B).length := by
    simp [toBitsLSB_length]
  have htake := List.take_left (toBitsLSB st.codeLen c) B
  rw [toBitsLSB_length] at htake
  have hdrop := List.drop_left (toBitsLSB st.codeLen c) B
  rw [toBitsLSB_length] at hdrop
  simp only [lzw_decode_loop]
  rw [if_pos ⟨hlen, h0⟩]
  rw [htake, hdrop, bitsVal_toBitsLSB _ _ hc]

/-- `add_child` keeps the trie sound: the new code `st.dictPos` stands for
the parent's string extended by the inserted symbol, and every existing fact
is untouched. -/
theorem add_child_TrieSound (i : Nat) (st : LZWGenState) (v c : Nat)
    (E : Nat → List Nat) (m : List Nat)
    (hTS : TrieSound i st E)
    (hInit : ∀ p c0, okCode i st.dictPos (st.pTreeInit p c0))
    (hChild : ∀ p, okCode i st.dictPos (st.pTreeListChild p))
    (hMap : ∀ p s, st.pTreeListMap p ≠ 0 →
      okCode i st.dictPos (st.pTreeMap (st.pTreeListMap p - 1) s))
    (hd2 : i + 2 ≤ st.dictPos)
    (hv : v < st.dictPos)
    (hEv : E v = m) :
    TrieSound i (add_child st v st.dictPos c)
      (Function.update E st.dictPos (m ++ [c])) := by
  obtain ⟨tsInit, tsChild, tsMap, tsEmpty, tsFresh, tsInj, tsPos⟩ := hTS
  set k := st.dictPos with hk
  set E2 := Function.update E k (m ++ [c]) with hE2
  have hE2k : E2 k = m ++ [c] := Function.update_same _ _ _
  have hE2ne : ∀ x, x ≠ k → E2 x = E x := fun x hx =>
    Function.update_noteq hx _ _
  have hE2v : E2 v = m := by rw [hE2ne v (by omega), hEv]
  have hEinit : ∀ p c0, st.pTreeInit p c0 ≠ 0 → E2 (st.pTreeInit p c0) = [p, c0] := by
    intro p c0 hne
    rcases hInit p c0 with hz | hok
    · exact absurd hz hne
    · rw [hE2ne _ (by omega), tsInit p c0 hne]
  have hchildlt : ∀ p, st.pTreeListChild p ≠ 0 → p < k := by
    intro p hne
    by_contra hge
    exact hne (tsEmpty p (by omega)).1
  have hmaplt : ∀ p, st.pTreeListMap p ≠ 0 → p < k := by
    intro p hne
    by_contra hge
    exact hne (tsEmpty p (by omega)).2
  have hEchild : ∀ p, st.pTreeListChild p ≠ 0 →
      E2 (st.pTreeListChild p) = E2 p ++ [st.pTreeListSym p] := by
    intro p hne
    have hplt : p < k := hchildlt p hne
    rcases hChild p with hz | hok
    · exact absurd hz hne
    · rw [hE2ne _ (by omega), hE2ne p (by omega), tsChild p hne]
  have hEmap : ∀ p s, st.pTreeListMap p ≠ 0 →
      st.pTreeMap (st.pTreeListMap p - 1) s ≠ 0 →
      E2 (st.pTreeMap (st.pTreeListMap p - 1) s) = E2 p ++ [s] := by
    intro p s hm hne
    have hplt : p < k := hmaplt p hm
    rcases hMap p s hm with hz | hok
    · exact absurd hz hne
    · rw [hE2ne _ (by omega), hE2ne p (by omega), tsMap p s hm hne]
  simp only [add_child]
  by_cases h0 : st.pTreeListMap v = 0
  · rw [if_pos h0]
    by_cases hch : st.pTreeListChild v ≠ 0
    · rw [if_pos hch]
      refine ⟨hEinit, hEchild, ?_, ?_, ?_, ?_, ?_⟩
      · intro p s hm hne
        show E2 (if upd st.pTreeListMap v st.mapPos p - 1 = st.mapPos - 1
            then (if s = c then k else 0)
            else st.pTreeMap (upd st.pTreeListMap v st.mapPos p - 1) s) =
          E2 p ++ [s]
        replace hm : upd st.pTreeListMap v st.mapPos p ≠ 0 := hm
        replace hne : (if upd st.pTreeListMap v st.mapPos p - 1 = st.mapPos - 1
            then (if s = c then k else 0)
            else st.pTreeMap (upd st.pTreeListMap v st.mapPos p - 1) s) ≠ 0 := hne
        by_cases hp : p = v
        · subst hp
          rw [upd_eq] at hm hne ⊢
          rw [if_pos rfl] at hne ⊢
          by_cases hs : s = c
          · subst hs
            rw [if_pos rfl]
            rw [hE2k, hE2v]
          · rw [if_neg hs] at hne
            exact absurd rfl hne
        · rw [upd_ne st.pTreeListMap v st.mapPos p hp] at hm hne ⊢
          have h2 : 1 ≤ st.pTreeListMap p := Nat.one_le_iff_ne_zero.mpr hm
          have h1 := tsFresh p
          have hrow : ¬(st.pTreeListMap p - 1 = st.mapPos - 1) := by omega
          rw [if_neg hrow] at hne ⊢
          exact hEmap p s hm hne
      · intro p hp
        replace hp : k + 1 ≤ p := hp
        constructor
        · show st.pTreeListChild p = 0
          exact (tsEmpty p (by omega)).1
        · show upd st.pTreeListMap v st.mapPos p = 0
          rw [upd_ne st.pTreeListMap v st.mapPos p (by omega)]
          exact (tsEmpty p (by omega)).2
      · intro p
        show upd st.pTreeListMap v st.mapPos p < st.mapPos + 1
        by_cases hp : p = v
        · subst hp
          rw [upd_eq]
          omega
        · rw [upd_ne st.pTreeListMap v st.mapPos p hp]
          have := tsFresh p
          omega
      · intro p q hp hq
        replace hp : upd st.pTreeListMap v st.mapPos p ≠ 0 := hp
        replace hq : upd st.pTreeListMap v st.mapPos q =
          upd st.pTreeListMap v st.mapPos p := hq
        by_cases hpv : p = v
        · subst hpv
          rw [upd_eq] at hq
          by_cases hqv : q = p
          · exact hqv
          · rw [upd_ne st.pTreeListMap p st.mapPos q hqv] at hq
            have := tsFresh q
            omega
        · rw [upd_ne st.pTreeListMap v st.mapPos p hpv] at hp hq
          by_cases hqv : q = v
          · subst hqv
            rw [upd_eq] at hq
            have := tsFresh p
            omega
          · rw [upd_ne st.pTreeListMap v st.mapPos q hqv] at hq
            exact tsInj p q hp hq
      · show 1 ≤ st.mapPos + 1
        omega
    · rw [if_neg hch]
      refine ⟨hEinit, ?_, ?_, ?_, tsFresh, tsInj, tsPos⟩
      · intro p hne
        show E2 (upd st.pTreeListChild v k p) = E2 p ++ [upd st.pTreeListSym v c p]
        replace hne : upd st.pTreeListChild v k p ≠ 0 := hne
        by_cases hp : p = v
        · subst hp
          rw [upd_eq, upd_eq, hE2k, hE2v]
        · rw [upd_ne st.pTreeListChild v k p hp] at hne
          rw [upd_ne st.pTreeListChild v k p hp,
            upd_ne st.pTreeListSym v c p hp]
          exact hEchild p hne
      · intro p s hm hne
        show E2 (st.pTreeMap (st.pTreeListMap p - 1) s) = E2 p ++ [s]
        exact hEmap p s hm hne
      · intro p hp
        replace hp : k + 1 ≤ p := hp
        constructor
        · show upd st.pTreeListChild v k p = 0
          rw [upd_ne st.pTreeListChild v k p (by omega)]
          exact (tsEmpty p (by omega)).1
        · show st.pTreeListMap p = 0
          exact (tsEmpty p (by omega)).2
  · rw [if_neg h0]
    refine ⟨hEinit, hEchild, ?_, ?_, tsFresh, tsInj, tsPos⟩
    · intro p s hm hne
      show E2 (upd2 st.pTreeMap (st.pTreeListMap v - 1) c k
          (st.pTreeListMap p - 1) s) = E2 p ++ [s]
      replace hm : st.pTreeListMap p ≠ 0 := hm
      replace hne : upd2 st.pTreeMap (st.pTreeListMap v - 1) c k
          (st.pTreeListMap p - 1) s ≠ 0 := hne
      by_cases hp : p = v
      · subst hp
        by_cases hs : s = c
        · subst hs
          rw [upd2_eq]
          rw [hE2k, hE2v]
        · have hcond : ¬(st.pTreeListMap p - 1 = st.pTreeListMap p - 1 ∧ s = c) :=
            fun hx => hs hx.2
          rw [upd2_ne _ _ _ _ _ _ hcond] at hne ⊢
          exact hEmap p s hm hne
      · have h2 : 1 ≤ st.pTreeListMap p := Nat.one_le_iff_ne_zero.mpr hm
        have h3 : 1 ≤ st.pTreeListMap v := Nat.one_le_iff_ne_zero.mpr h0
        have hne2 : st.pTreeListMap p ≠ st.pTreeListMap v := by
          intro hx
          exact hp (tsInj v p h0 hx)
        have hcond : ¬(st.pTreeListMap p - 1 = st.pTreeListMap v - 1 ∧ s = c) := by
          intro hx
          have := hx.1
          omega
        rw [upd2_ne _ _ _ _ _ _ hcond] at hne ⊢
        exact hEmap p s hm hne
    · intro p hp
      replace hp : k + 1 ≤ p := hp
      exact ⟨(tsEmpty p (by omega)).1, (tsEmpty p (by omega)).2⟩

/-- Inserting a dense-table edge keeps the trie sound: the new code stands
for the two-symbol string it was inserted under. -/
theorem dense_add_TrieSound (i : Nat) (st : LZWGenState) (p c : Nat)
    (E : Nat → List Nat)
    (hTS : TrieSound i st E)
    (hInit : ∀ q d, okCode i st.dictPos (st.pTreeInit q d))
    (hChild : ∀ q, okCode i st.dictPos (st.pTreeListChild q))
    (hMap : ∀ q s, st.pTreeListMap q ≠ 0 →
      okCode i st.dictPos (st.pTreeMap (st.pTreeListMap q - 1) s))
    (hd2 : i + 2 ≤ st.dictPos) :
    TrieSound i
      { st with pTreeInit := upd2 st.pTreeInit p c st.dictPos
                dictPos := st.dictPos + 1 }
      (Function.update E st.dictPos ([p] ++ [c])) := by
  obtain ⟨tsInit, tsChild, tsMap, tsEmpty, tsFresh, tsInj, tsPos⟩ := hTS
  set k := st.dictPos with hk
  set E2 := Function.update E k ([p] ++ [c]) with hE2
  have hE2k : E2 k = [p] ++ [c] := Function.update_same _ _ _
  have hE2ne : ∀ x, x ≠ k → E2 x = E x := fun x hx =>
    Function.update_noteq hx _ _
  have hchildlt : ∀ q, st.pTreeListChild q ≠ 0 → q < k := by
    intro q hne
    by_contra hge
    exact hne (tsEmpty q (by omega)).1
  have hmaplt : ∀ q, st.pTreeListMap q ≠ 0 → q < k := by
    intro q hne
    by_contra hge
    exact hne (tsEmpty q (by omega)).2
  refine ⟨?_, ?_, ?_, ?_, tsFresh, tsInj, tsPos⟩
  · intro q d hne
    show E2 (upd2 st.pTreeInit p c k q d) = [q, d]
    by_cases hqd : q = p ∧ d = c
    · obtain ⟨hq, hd⟩ := hqd
      subst hq
      subst hd
      rw [upd2_eq, hE2k]
      rfl
    · rw [upd2_ne _ _ _ _ _ _ hqd]
      have hne2 : st.pTreeInit q d ≠ 0 := by
        intro hz
        apply hne
        show upd2 st.pTreeInit p c k q d = 0
        rw [upd2_ne _ _ _ _ _ _ hqd]
        exact hz
      rcases hInit q d with hz | hok
      · exact absurd hz hne2
      · rw [hE2ne _ (by omega)]
        exact tsInit q d hne2
  · intro q hne
    show E2 (st.pTreeListChild q) = E2 q ++ [st.pTreeListSym q]
    rcases hChild q with hz | hok
    · exact absurd hz hne
    · rw [hE2ne _ (by omega), hE2ne q (Nat.ne_of_lt (hchildlt q hne)),
        tsChild q hne]
  · intro q s hm hne
    show E2 (st.pTreeMap (st.pTreeListMap q - 1) s) = E2 q ++ [s]
    rcases hMap q s hm with hz | hok
    · exact absurd hz hne
    · rw [hE2ne _ (by omega), hE2ne q (Nat.ne_of_lt (hmaplt q hm)),
        tsMap q s hm hne]
  · intro q hq
    replace hq : k + 1 ≤ q := hq
    exact ⟨(tsEmpty q (by omega)).1, (tsEmpty q (by omega)).2⟩

/-- After a dictionary reset the trie is empty, so it is sound for any ghost
assignment. -/
theorem resetDict_TrieSound (i : Nat) (st : LZWGenState) (E : Nat → List Nat) :
    TrieSound i (resetDict st i) E := by
  refine ⟨?_, ?_, ?_, ?_, ?_, ?_, ?_⟩
  · intro p c hne
    exact absurd rfl hne
  · intro p hne
    exact absurd rfl hne
  · intro p s hne _
    exact absurd rfl hne
  · intro p _
    exact ⟨rfl, rfl⟩
  · intro p
    show (0 : Nat) < 1
    omega
  · intro p q hp _
    exact absurd rfl hp
  · exact Nat.le_refl 1

/-- The crawl loop follows the trie along the consumed symbols: it succeeds
with a final node standing for the whole consumed match, and ends by either
emitting at end of input, inserting the mismatching extension as a new child,
or resetting a full dictionary. -/
theorem lzw_crawl_tree_loop_sim (i : Nat) (E : Nat → List Nat) :
    ∀ (rest : List Nat) (st : LZWGenState) (v : Nat) (s : List Nat)
      (stR : LZWGenState) (rem : List Nat),
      (∀ c0 ∈ rest, c0 < i) →
      (∀ q, okCode i st.dictPos (st.pTreeListChild q)) →
      (∀ q s0, st.pTreeListMap q ≠ 0 →
        okCode i st.dictPos (st.pTreeMap (st.pTreeListMap q - 1) s0)) →
      i + 2 ≤ st.dictPos →
      st.dictPos ≤ MAX_DICT_LEN →
      TrieSound i st E →
      E v = s → s ≠ [] →
      (v < i ∨ (i + 2 ≤ v ∧ v < st.dictPos)) →
      lzw_crawl_tree_loop i st v rest = .ok (stR, rem) →
      ∃ ext vf,
        rest = ext ++ rem ∧ E vf = s ++ ext ∧
        (vf < i ∨ (i + 2 ≤ vf ∧ vf < st.dictPos)) ∧
        ((rem = [] ∧ stR = { st with pLZWData := st.pLZWData ++ [vf] }) ∨
         (∃ r rest2, rem = r :: rest2 ∧ r < i ∧ st.dictPos < MAX_DICT_LEN ∧
           stR = add_child { st with pLZWData := st.pLZWData ++ [vf] }
             vf st.dictPos r) ∨
         (∃ r rest2, rem = r :: rest2 ∧ r < i ∧ st.dictPos = MAX_DICT_LEN ∧
           stR = resetDict { st with pLZWData := st.pLZWData ++ [vf] } i)) := by
  intro rest
  induction rest with
  | nil =>
    intro st v s stR rem hrest hChild hMap hd2 hdM hTS hEv hsne hvcls h
    simp only [lzw_crawl_tree_loop] at h
    cases h
    exact ⟨[], v, by simp, by simpa using hEv, hvcls, Or.inl ⟨rfl, rfl⟩⟩
  | cons c rest ih =>
    intro st v s stR rem hrest hChild hMap hd2 hdM hTS hEv hsne hvcls h
    have hc : c < i := hrest c (by simp)
    simp only [lzw_crawl_tree_loop] at h
    split at h
    · cases h
    · split at h
      · rename_i hcl
        have hEv2 : E (st.pTreeListChild v) = s ++ [c] := by
          rw [hTS.2.1 v hcl.1, hEv, hcl.2]
        have hcls2 : st.pTreeListChild v < i ∨
            (i + 2 ≤ st.pTreeListChild v ∧ st.pTreeListChild v < st.dictPos) := by
          rcases hChild v with hz | hok
          · exact absurd hz hcl.1
          · exact Or.inr hok
        obtain ⟨ext, vf, hsplit, hEvf, hvf, hcase⟩ :=
          ih st (st.pTreeListChild v) (s ++ [c]) stR rem
            (fun c0 hc0 => hrest c0 (by simp [hc0]))
            hChild hMap hd2 hdM hTS hEv2 (by simp) hcls2 h
        refine ⟨c :: ext, vf, ?_, ?_, hvf, hcase⟩
        · rw [hsplit]
          rfl
        · rw [hEvf]
          simp
      · split at h
        · rename_i hm
          have hEv2 : E (st.pTreeMap (st.pTreeListMap v - 1) c) = s ++ [c] := by
            rw [hTS.2.2.1 v c hm.1 hm.2, hEv]
          have hcls2 : st.pTreeMap (st.pTreeListMap v - 1) c < i ∨
              (i + 2 ≤ st.pTreeMap (st.pTreeListMap v - 1) c ∧
               st.pTreeMap (st.pTreeListMap v - 1) c < st.dictPos) := by
            rcases hMap v c hm.1 with hz | hok
            · exact absurd hz hm.2
            · exact Or.inr hok
          obtain ⟨ext, vf, hsplit, hEvf, hvf, hcase⟩ :=
            ih st (st.pTreeMap (st.pTreeListMap v - 1) c) (s ++ [c]) stR rem
              (fun c0 hc0 => hrest c0 (by simp [hc0]))
              hChild hMap hd2 hdM hTS hEv2 (by simp) hcls2 h
          refine ⟨c :: ext, vf, ?_, ?_, hvf, hcase⟩
          · rw [hsplit]
            rfl
          · rw [hEvf]
            simp
        · split at h
          · rename_i hd
            replace hd : st.dictPos < MAX_DICT_LEN := hd
            cases h
            refine ⟨[], v, by simp, by simpa using hEv, hvcls,
              Or.inr (Or.inl ⟨c, rest, rfl, hc, hd, rfl⟩)⟩
          · rename_i hd
            replace hd : ¬st.dictPos < MAX_DICT_LEN := hd
            cases h
            refine ⟨[], v, by simp, by simpa using hEv, hvcls,
              Or.inr (Or.inr ⟨c, rest, rfl, hc, by omega, rfl⟩)⟩

/-- One full crawl: the encoder consumes the longest trie match `m` starting
at the root literal, emits the code standing for `m`, and either ends the
input, records `m` extended by the mismatching symbol as a new dictionary
entry, or resets a full dictionary. -/
theorem lzw_crawl_tree_sim (i : Nat) (E : Nat → List Nat)
    (rest : List Nat) (st : LZWGenState) (p : Nat)
    (stR : LZWGenState) (rem : List Nat)
    (hrest : ∀ c0 ∈ rest, c0 < i)
    (hInit : ∀ q d, okCode i st.dictPos (st.pTreeInit q d))
    (hChild : ∀ q, okCode i st.dictPos (st.pTreeListChild q))
    (hMap : ∀ q s0, st.pTreeListMap q ≠ 0 →
      okCode i st.dictPos (st.pTreeMap (st.pTreeListMap q - 1) s0))
    (hd2 : i + 2 ≤ st.dictPos) (hdM : st.dictPos ≤ MAX_DICT_LEN)
    (hTS : TrieSound i st E)
    (hlit : ∀ c0, c0 < i → E c0 = [c0])
    (h : lzw_crawl_tree i st p rest = .ok (stR, rem)) :
    ∃ m vf,
      m ++ rem = p :: rest ∧ E vf = m ∧ m ≠ [] ∧
      (vf < i ∨ (i + 2 ≤ vf ∧ vf < st.dictPos)) ∧
      ((rem = [] ∧ stR = { st with pLZWData := st.pLZWData ++ [vf] }) ∨
       (∃ r rest2, rem = r :: rest2 ∧ r < i ∧ st.dictPos < MAX_DICT_LEN ∧
         stR.pLZWData = st.pLZWData ++ [vf] ∧ stR.dictPos = st.dictPos + 1 ∧
         TrieSound i stR (Function.update E st.dictPos (m ++ [r]))) ∨
       (∃ r rest2, rem = r :: rest2 ∧ r < i ∧ st.dictPos = MAX_DICT_LEN ∧
         stR = resetDict { st with pLZWData := st.pLZWData ++ [vf] } i)) := by
  have hdigest : ∀ (m0 : List Nat) (vf : Nat) (r : Nat),
      E vf = m0 →
      (vf < i ∨ (i + 2 ≤ vf ∧ vf < st.dictPos)) →
      st.dictPos < MAX_DICT_LEN →
      TrieSound i
        (add_child { st with pLZWData := st.pLZWData ++ [vf] } vf st.dictPos r)
        (Function.update E st.dictPos (m0 ++ [r])) := by
    intro m0 vf r hEvf hvf hdlt
    have hvlt : vf < st.dictPos := by
      rcases hvf with h | h <;> omega
    exact add_child_TrieSound i { st with pLZWData := st.pLZWData ++ [vf] }
      vf r E m0 hTS hInit hChild hMap hd2 hvlt hEvf
  cases rest with
  | nil =>
    simp only [lzw_crawl_tree] at h
    split at h
    · cases h
    · rename_i hp
      replace hp : ¬ i ≤ p := hp
      obtain ⟨ext, vf, hsplit, hEvf, hvf, hcase⟩ :=
        lzw_crawl_tree_loop_sim i E [] st p [p] stR rem (by simp)
          hChild hMap hd2 hdM hTS (hlit p (by omega)) (by simp)
          (Or.inl (by omega)) h
      have hext : ext = [] ∧ rem = [] := by
        cases ext with
        | nil => exact ⟨rfl, hsplit.symm⟩
        | cons a t => simp at hsplit
      obtain ⟨he, hr⟩ := hext
      subst he
      refine ⟨[p], vf, by simp [hr], by simpa using hEvf, by simp, hvf, ?_⟩
      rcases hcase with hA | hB | hC
      · exact Or.inl hA
      · obtain ⟨r, rest2, hrem, _⟩ := hB
        rw [hr] at hrem
        cases hrem
      · obtain ⟨r, rest2, hrem, _⟩ := hC
        rw [hr] at hrem
        cases hrem
  | cons c rest1 =>
    have hc : c < i := hrest c (by simp)
    simp only [lzw_crawl_tree] at h
    split at h
    · cases h
    · rename_i hp
      replace hp : ¬ i ≤ p := hp
      split at h
      · cases h
      · split at h
        · rename_i hdense
          have hEv0 : E (st.pTreeInit p c) = [p] ++ [c] := by
            rw [hTS.1 p c hdense]
            rfl
          have hcls0 : st.pTreeInit p c < i ∨
              (i + 2 ≤ st.pTreeInit p c ∧ st.pTreeInit p c < st.dictPos) := by
            rcases hInit p c with hz | hok
            · exact absurd hz hdense
            · exact Or.inr hok
          obtain ⟨ext, vf, hsplit, hEvf, hvf, hcase⟩ :=
            lzw_crawl_tree_loop_sim i E rest1 st (st.pTreeInit p c)
              ([p] ++ [c]) stR rem
              (fun c0 hc0 => hrest c0 (by simp [hc0]))
              hChild hMap hd2 hdM hTS hEv0 (by simp)
              hcls0 h
          refine ⟨p :: c :: ext, vf, ?_, ?_, by simp, hvf, ?_⟩
          · rw [hsplit]
            rfl
          · rw [hEvf]
            simp
          · rcases hcase with hA | hB | hC
            · exact Or.inl hA
            · obtain ⟨r, rest2, hrem, hr, hdlt, hstR⟩ := hB
              refine Or.inr (Or.inl ⟨r, rest2, hrem, hr, hdlt, ?_, ?_, ?_⟩)
              · rw [hstR, add_child_pLZWData]
              · rw [hstR, add_child_dictPos]
              · rw [hstR]
                have := hdigest ([p] ++ [c] ++ ext) vf r (by rw [hEvf]) hvf hdlt
                simpa using this
            · exact Or.inr (Or.inr hC)
        · rename_i hdense
          replace hdense : ¬ st.pTreeInit p c ≠ 0 := hdense
          split at h
          · rename_i hd
            replace hd : st.dictPos < MAX_DICT_LEN := hd
            cases h
            refine ⟨[p], p, rfl, hlit p (by omega), by simp,
              Or.inl (by omega), Or.inr (Or.inl ⟨c, rest1, rfl, hc, hd, rfl, rfl, ?_⟩)⟩
            have := dense_add_TrieSound i
              { st with pLZWData := st.pLZWData ++ [p] } p c E hTS hInit hChild
              hMap hd2
            exact this
          · rename_i hd
            replace hd : ¬ st.dictPos < MAX_DICT_LEN := hd
            cases h
            exact ⟨[p], p, rfl, hlit p (by omega), by simp,
              Or.inl (by omega), Or.inr (Or.inr ⟨c, rest1, rfl, hc, by omega, rfl⟩)⟩

theorem decInitTable_lt (clear c : Nat) (h : c < clear) :
    decInitTable clear c = [c] := by
  simp [decInitTable, h]

theorem headI_append_left {mp : List Nat} (X : List Nat) (h : mp ≠ []) :
    (mp ++ X).headI = mp.headI := by
  cases mp with
  | nil => exact absurd rfl h
  | cons a t => rfl

/-- Reading the code of one completed match at a match boundary: the decoder
emits exactly the match string, trails the encoder by one pending entry, and
keeps its read width in lockstep with the packer's write width. -/
theorem decode_boundary_read (i ic : Nat) (st : LZWGenState) (E : Nat → List Nat)
    (Dst : LZWDecState) (p : Nat) (rest : List Nat) (m : List Nat) (vf : Nat)
    (W : WState)
    (h3 : 3 ≤ ic) (hi4 : 4 ≤ i)
    (hW : WInv i ic W)
    (hWdef : W = scanW i ic st.pLZWData)
    (hBS : BSync i ic st E Dst (p :: rest))
    (hdM : st.dictPos ≤ MAX_DICT_LEN)
    (hfit : vf < 2 ^ writeLen i W)
    (hEvf : E vf = m) (hmne : m ≠ []) (hhead : m.headI = p)
    (hvf : vf < i ∨ (i + 2 ≤ vf ∧ vf < st.dictPos))
    (hlit : ∀ c0, c0 < i → E c0 = [c0]) :
    ∃ Dst1 : LZWDecState,
      (∀ (f : Nat) (B : List Bool),
        lzw_decode_loop i ic (f + 1) Dst (toBitsLSB (writeLen i W) vf ++ B) =
          lzw_decode_loop i ic f Dst1 B) ∧
      Dst1.out = Dst.out ++ m ∧
      Dst1.prev = some m ∧
      Dst1.codeLen = writeLen i (widthStep i ic W vf) ∧
      Dst1.nextCode = st.dictPos ∧
      (∀ c0, c0 < i → Dst1.table c0 = [c0]) ∧
      (∀ c0, i + 2 ≤ c0 → c0 < st.dictPos → Dst1.table c0 = E c0) := by
  obtain ⟨hBcl, hBlit, hBtab, hBdp, hBprev⟩ := hBS
  rw [← hWdef] at hBcl hBdp hBprev
  have hMD : MAX_DICT_LEN = 4096 := rfl
  have hdp1 : 1 ≤ W.dictPos := hW.2.2.2.1
  have hd2 : i + 2 ≤ st.dictPos := by omega
  have hvlt : vf < st.dictPos := by rcases hvf with h | h <;> omega
  have hvne : vf ≠ i := by rcases hvf with h | h <;> omega
  have hvne2 : vf ≠ i + 1 := by rcases hvf with h | h <;> omega
  have hclW : writeLen i W = Dst.codeLen := hBcl.symm
  have h0 : 0 < Dst.codeLen := by
    have hle := le_writeLen i W
    have hicl := hW.2.1
    omega
  have hfit2 : vf < 2 ^ Dst.codeLen := by rw [← hclW]; exact hfit
  cases hDp : Dst.prev with
  | none =>
    simp only [hDp] at hBprev
    obtain ⟨hWinit, hnc⟩ := hBprev
    have hWd1 : W.dictPos = 1 := by rw [hWinit]; rfl
    have hvi : vf < i := by
      rcases hvf with h | h
      · exact h
      · omega
    have hmvf : m = [vf] := by rw [← hEvf, hlit vf hvi]
    refine ⟨{ Dst with out := Dst.out ++ [vf], prev := some [vf] },
      ?_, ?_, ?_, ?_, ?_, ?_, ?_⟩
    · intro f B
      rw [hclW, lzw_decode_loop_read i ic f Dst vf B hfit2 h0,
        if_neg hvne, if_neg hvne2]
      simp only [hDp]
      rw [if_pos hvi]
    · show Dst.out ++ [vf] = Dst.out ++ m
      rw [hmvf]
    · show some [vf] = some m
      rw [hmvf]
    · show Dst.codeLen = writeLen i (widthStep i ic W vf)
      rw [← hclW, hWinit, writeLen_wInit i ic (by omega),
        writeLen_widthStep_wInit i ic vf (by omega) hvne]
    · show Dst.nextCode = st.dictPos
      omega
    · intro c0 hc0
      show Dst.table c0 = [c0]
      exact hBlit c0 hc0
    · intro c0 hc1 hc2
      show Dst.table c0 = E c0
      exact absurd (by omega : c0 < i + 2) (by omega)
  | some mp =>
    simp only [hDp] at hBprev
    obtain ⟨hWd2, hnc, hmpne, hpend⟩ := hBprev
    have hpend2 : E (st.dictPos - 1) = mp ++ [p] := hpend p rest rfl
    have hncM : Dst.nextCode < 4096 := by omega
    have hncW : Dst.nextCode = i + W.dictPos := by omega
    rcases Nat.lt_or_ge vf Dst.nextCode with hlt | hge
    · -- known code
      have htab : Dst.table vf = m := by
        rcases hvf with h | h
        · rw [hBlit vf h, ← hEvf, hlit vf h]
        · rw [hBtab vf h.1 hlt, hEvf]
      refine ⟨{ decAddEntry Dst (mp ++ [m.headI]) with
          out := Dst.out ++ m, prev := some m }, ?_, rfl, rfl, ?_, ?_, ?_, ?_⟩
      · intro f B
        rw [hclW, lzw_decode_loop_read i ic f Dst vf B hfit2 h0,
          if_neg hvne, if_neg hvne2]
        simp only [hDp]
        rw [if_pos hlt, htab]
      · show (decAddEntry Dst (mp ++ [m.headI])).codeLen =
          writeLen i (widthStep i ic W vf)
        rw [decAddEntry_codeLen Dst _ hncM, hBcl, hncW]
        exact width_sync_step i ic W vf hW hvne hi4
      · show (decAddEntry Dst (mp ++ [m.headI])).nextCode = st.dictPos
        rw [decAddEntry_nextCode Dst _ hncM]
        omega
      · intro c0 hc0
        show (decAddEntry Dst (mp ++ [m.headI])).table c0 = [c0]
        rw [decAddEntry_table Dst _ hncM]
        simp only
        rw [if_neg (by omega : ¬ c0 = Dst.nextCode)]
        exact hBlit c0 hc0
      · intro c0 hc1 hc2
        show (decAddEntry Dst (mp ++ [m.headI])).table c0 = E c0
        rw [decAddEntry_table Dst _ hncM]
        simp only
        by_cases hceq : c0 = Dst.nextCode
        · rw [if_pos hceq, hhead, hceq]
          rw [show Dst.nextCode = st.dictPos - 1 from hnc, hpend2]
        · rw [if_neg hceq]
          exact hBtab c0 hc1 (by omega)
    · -- the pending entry itself (the cScSc case)
      have hEq : vf = Dst.nextCode := by omega
      have hmEq : m = mp ++ [p] := by
        rw [← hEvf, hEq, hnc, hpend2]
      have hpmp : mp.headI = p := by
        have := hhead
        rw [hmEq] at this
        rw [← this, headI_append_left [p] hmpne]
      have hmEq2 : m = mp ++ [mp.headI] := by rw [hmEq, hpmp]
      refine ⟨{ decAddEntry Dst (mp ++ [mp.headI]) with
          out := Dst.out ++ (mp ++ [mp.headI]), prev := some (mp ++ [mp.headI]) },
        ?_, ?_, ?_, ?_, ?_, ?_, ?_⟩
      · intro f B
        rw [hclW, lzw_decode_loop_read i ic f Dst vf B hfit2 h0,
          if_neg hvne, if_neg hvne2]
        simp only [hDp]
        rw [if_neg (by omega : ¬ vf < Dst.nextCode), if_pos hEq]
      · show Dst.out ++ (mp ++ [mp.headI]) = Dst.out ++ m
        rw [← hmEq2]
      · show some (mp ++ [mp.headI]) = some m
        rw [← hmEq2]
      · show (decAddEntry Dst (mp ++ [mp.headI])).codeLen =
          writeLen i (widthStep i ic W vf)
        rw [decAddEntry_codeLen Dst _ hncM, hBcl, hncW]
        exact width_sync_step i ic W vf hW hvne hi4
      · show (decAddEntry Dst (mp ++ [mp.headI])).nextCode = st.dictPos
        rw [decAddEntry_nextCode Dst _ hncM]
        omega
      · intro c0 hc0
        show (decAddEntry Dst (mp ++ [mp.headI])).table c0 = [c0]
        rw [decAddEntry_table Dst _ hncM]
        simp only
        rw [if_neg (by omega : ¬ c0 = Dst.nextCode)]
        exact hBlit c0 hc0
      · intro c0 hc1 hc2
        show (decAddEntry Dst (mp ++ [mp.headI])).table c0 = E c0
        rw [decAddEntry_table Dst _ hncM]
        simp only
        by_cases hceq : c0 = Dst.nextCode
        · rw [if_pos hceq, hpmp, hceq]
          rw [show Dst.nextCode = st.dictPos - 1 from hnc, hpend2]
        · rw [if_neg hceq]
          exact hBtab c0 hc1 (by omega)

/-- Reading the End Code terminates the decode loop with the output so far. -/
theorem decode_end_read (i ic : Nat)
    (h1 : i = 2 ^ (ic - 1)) (h3 : 3 ≤ ic)
    (W : WState) (Dst : LZWDecState)
    (hW : WInv i ic W)
    (hcl : Dst.codeLen = writeLen i W) :
    ∀ (fuel : Nat) (pad : List Bool), 1 ≤ fuel →
      lzw_decode_loop i ic fuel Dst (codeBits i ic W [i + 1] ++ pad) =
        some Dst.out := by
  intro fuel pad hf
  obtain ⟨f, rfl⟩ : ∃ f, fuel = f + 1 := ⟨fuel - 1, by omega⟩
  rw [codeBits_cons, codeBits_nil, List.append_nil]
  have hfit : i + 1 < 2 ^ writeLen i W := clear_end_fit i ic W h1 (by omega) hW
  have h0 : 0 < Dst.codeLen := by
    have hle := le_writeLen i W
    have hicl := hW.2.1
    omega
  rw [show writeLen i W = Dst.codeLen from hcl.symm]
  rw [lzw_decode_loop_read i ic f Dst (i + 1) pad
    (by rw [hcl]; exact hfit) h0]
  rw [if_neg (by omega : ¬ (i + 1 = i)), if_pos rfl]

/-- The main simulation: from any synchronised match boundary, the decoder
consumes the bits of the codes the encoder will still emit (followed by the
End Code) and outputs exactly the remaining input symbols. -/
theorem lzw_generate_loop_sim (i ic : Nat)
    (h1 : i = 2 ^ (ic - 1)) (h3 : 3 ≤ ic) (h12 : ic ≤ MAX_CODE_LEN) :
    ∀ (n : Nat) (rem : List Nat), rem.length ≤ n →
    ∀ (st : LZWGenState) (E : Nat → List Nat) (Dst : LZWDecState)
      (stf : LZWGenState),
      (∀ c0 ∈ rem, c0 < i) →
      EncInv i ic st →
      TrieSound i st E →
      (∀ c0, c0 < i → E c0 = [c0]) →
      BSync i ic st E Dst rem →
      lzw_generate_loop i st rem = .ok stf →
      ∃ Δ, stf.pLZWData = st.pLZWData ++ Δ ∧
        ∀ (fuel : Nat) (pad : List Bool), Δ.length + 1 ≤ fuel →
          lzw_decode_loop i ic fuel Dst
            (codeBits i ic (scanW i ic st.pLZWData) (Δ ++ [i + 1]) ++ pad) =
            some (Dst.out ++ rem) := by
  have hi4 : 4 ≤ i := by
    have hp : (2 : Nat) ^ 2 ≤ 2 ^ (ic - 1) := Nat.pow_le_pow_right (by omega) (by omega)
    have h4 : (2 : Nat) ^ 2 = 4 := by norm_num
    omega
  have hMD : MAX_DICT_LEN = 4096 := rfl
  intro n
  induction n with
  | zero =>
    intro rem hlen st E Dst stf hsym hInv hTS hlit hBS hloop
    have hremnil : rem = [] := by
      cases rem with
      | nil => rfl
      | cons a t => simp at hlen
    subst hremnil
    rw [lzw_generate_loop_nil] at hloop
    cases hloop
    refine ⟨[], by simp, ?_⟩
    intro fuel pad hf
    have hend := decode_end_read i ic h1 h3 (scanW i ic st.pLZWData) Dst
      hInv.2.1 hBS.1 fuel pad (by omega)
    simpa using hend
  | succ n ihn =>
    intro rem hlen st E Dst stf hsym hInv hTS hlit hBS hloop
    cases rem with
    | nil =>
      rw [lzw_generate_loop_nil] at hloop
      cases hloop
      refine ⟨[], by simp, ?_⟩
      intro fuel pad hf
      have hend := decode_end_read i ic h1 h3 (scanW i ic st.pLZWData) Dst
        hInv.2.1 hBS.1 fuel pad (by omega)
      simpa using hend
    | cons p rest =>
      rw [lzw_generate_loop_cons] at hloop
      cases hcr : lzw_crawl_tree i st p rest with
      | error e =>
        rw [hcr] at hloop
        cases hloop
      | ok pr =>
        obtain ⟨st1, rem1⟩ := pr
        rw [hcr] at hloop
        replace hloop : lzw_generate_loop i st1 rem1 = .ok stf := hloop
        have hlen1 : rem1.length ≤ n := by
          have := lzw_crawl_tree_rem_length i rest st p st1 rem1 hcr
          simp only [List.length_cons] at hlen
          omega
        obtain ⟨hOK, hW0, hd2, hdM, hsyncE, hInit, hChild, hMap⟩ := hInv
        obtain ⟨m, vf, hm, hEvf, hmne, hvf, hcase⟩ :=
          lzw_crawl_tree_sim i E rest st p st1 rem1
            (fun c0 hc0 => hsym c0 (by simp [hc0]))
            hInit hChild hMap hd2 hdM hTS hlit hcr
        have hInv1 : EncInv i ic st1 :=
          lzw_crawl_tree_EncInv i ic h1 (by omega) h12 rest st p st1 rem1
            ⟨hOK, hW0, hd2, hdM, hsyncE, hInit, hChild, hMap⟩ hcr
        set W := scanW i ic st.pLZWData with hWdef
        have hW : WInv i ic W := hW0
        obtain ⟨hBcl, hBlit, hBtab, hBdp, hBprev⟩ := hBS
        have hBdpW : st.dictPos = i + 1 + W.dictPos := hBdp
        have hvlt : vf < st.dictPos := by rcases hvf with h | h <;> omega
        have hvne : vf ≠ i := by rcases hvf with h | h <;> omega
        have hfitvf : vf < 2 ^ writeLen i W :=
          emit_fits i ic W vf hW (by omega) (by omega)
        have hhead : m.headI = p := headI_append_cons hm hmne
        have hsymrem1 : ∀ c0 ∈ rem1, c0 < i := by
          intro c0 hc0
          refine hsym c0 ?_
          rw [← hm]
          exact List.mem_append_right m hc0
        obtain ⟨Dst1, hF1, hF2, hF3, hF4, hF5, hF6, hF7⟩ :=
          decode_boundary_read i ic st E Dst p rest m vf W h3 hi4 hW hWdef
            ⟨hBcl, hBlit, hBtab, hBdp, hBprev⟩ hdM hfitvf hEvf hmne hhead hvf hlit
        have hscanvf : scanW i ic (st.pLZWData ++ [vf]) = widthStep i ic W vf := by
          rw [scanW_append, ← hWdef]
          rfl
        have hWd1 : (widthStep i ic W vf).dictPos = W.dictPos + 1 :=
          widthStep_dictPos_ne i ic W vf hvne
        have hW1 : WInv i ic (widthStep i ic W vf) :=
          widthStep_WInv i ic h1 (by omega) h12 W vf hW
        rcases hcase with ⟨hrem1, hstR⟩ | ⟨r, rest2, hrem1, hr, hdlt, hpL, hdp1, hTS1⟩ |
          ⟨r, rest2, hrem1, hdeq, hrlt, hstR⟩
        · -- end of input: the final match code, then the End Code
          subst hrem1
          rw [lzw_generate_loop_nil] at hloop
          cases hloop
          rw [List.append_nil] at hm
          refine ⟨[vf], by rw [hstR], ?_⟩
          intro fuel pad hf
          obtain ⟨f, rfl⟩ : ∃ f, fuel = f + 1 := ⟨fuel - 1, by omega⟩
          rw [List.cons_append, codeBits_cons, List.nil_append,
            List.append_assoc, hF1 f _]
          have hend := decode_end_read i ic h1 h3 (widthStep i ic W vf) Dst1
            hW1 hF4 f pad (by simp at hf; omega)
          rw [hend, hF2, hm]
        · -- a new dictionary entry was recorded
          set E1 := Function.update E st.dictPos (m ++ [r]) with hE1def
          have hlit1 : ∀ c0, c0 < i → E1 c0 = [c0] := by
            intro c0 hc0
            rw [hE1def, Function.update_noteq (by omega : c0 ≠ st.dictPos), hlit c0 hc0]
          have hBS1 : BSync i ic st1 E1 Dst1 rem1 := by
            refine ⟨?_, hF6, ?_, ?_, ?_⟩
            · rw [hpL, hscanvf]
              exact hF4
            · intro c0 hc1 hc2
              rw [hF5] at hc2
              rw [hE1def, Function.update_noteq (by omega : c0 ≠ st.dictPos)]
              exact hF7 c0 hc1 hc2
            · rw [hpL, hscanvf, hWd1, hdp1]
              omega
            · simp only [hF3]
              refine ⟨?_, ?_, hmne, ?_⟩
              · rw [hpL, hscanvf, hWd1]
                have := hW.2.2.2.1
                omega
              · rw [hF5, hdp1]
                omega
              · intro r2 rest3 hr2
                rw [hrem1] at hr2
                cases hr2
                rw [hdp1]
                rw [show st.dictPos + 1 - 1 = st.dictPos by omega]
                rw [hE1def, Function.update_same]
          obtain ⟨Δ2, hpre2, hdec2⟩ :=
            ihn rem1 hlen1 st1 E1 Dst1 stf hsymrem1 hInv1 hTS1 hlit1 hBS1 hloop
          refine ⟨vf :: Δ2, ?_, ?_⟩
          · rw [hpre2, hpL]
            simp
          · intro fuel pad hf
            obtain ⟨f, rfl⟩ : ∃ f, fuel = f + 1 := ⟨fuel - 1, by omega⟩
            rw [List.cons_append, codeBits_cons, List.append_assoc, hF1 f _]
            have hrec := hdec2 f pad (by simp at hf ⊢; omega)
            rw [hpL, hscanvf] at hrec
            rw [hrec, hF2, List.append_assoc, hm]
        · -- the dictionary was full: the match code, then a Clear Code
          have hpL1 : st1.pLZWData = (st.pLZWData ++ [vf]) ++ [i] := by
            rw [hstR]
            rfl
          have hdp1C : st1.dictPos = i + 2 := by
            rw [hstR]
            rfl
          have hscanC : scanW i ic st1.pLZWData = wInit i ic := by
            rw [hpL1, scanW_append]
            show widthStep i ic (scanW i ic (st.pLZWData ++ [vf])) i = wInit i ic
            exact widthStep_clear i ic _
          have hTS1 : TrieSound i st1 E := by
            rw [hstR]
            exact resetDict_TrieSound i _ E
          set Dst2 : LZWDecState :=
            { table := decInitTable i, nextCode := i + 2, codeLen := ic,
              prev := none, out := Dst1.out } with hDst2
          have hBS1 : BSync i ic st1 E Dst2 rem1 := by
            refine ⟨?_, ?_, ?_, ?_, ?_⟩
            · show ic = writeLen i (scanW i ic st1.pLZWData)
              rw [hscanC, writeLen_wInit i ic (by omega)]
            · intro c0 hc0
              show decInitTable i c0 = [c0]
              exact decInitTable_lt i c0 hc0
            · intro c0 hc1 hc2
              replace hc2 : c0 < i + 2 := hc2
              exact absurd hc1 (by omega)
            · rw [hscanC, hdp1C]
              rfl
            · show scanW i ic st1.pLZWData = wInit i ic ∧ (i + 2 : Nat) = i + 2
              exact ⟨hscanC, rfl⟩
          obtain ⟨Δ2, hpre2, hdec2⟩ :=
            ihn rem1 hlen1 st1 E Dst2 stf hsymrem1 hInv1 hTS1 hlit hBS1 hloop
          refine ⟨vf :: i :: Δ2, ?_, ?_⟩
          · rw [hpre2, hpL1]
            simp
          · intro fuel pad hf
            obtain ⟨f1, rfl⟩ : ∃ f1, fuel = f1 + 1 := ⟨fuel - 1, by omega⟩
            obtain ⟨f2, rfl⟩ : ∃ f2, f1 = f2 + 1 := ⟨f1 - 1, by simp at hf; omega⟩
            rw [List.cons_append, codeBits_cons, List.append_assoc, hF1 (f2 + 1) _]
            rw [List.cons_append, codeBits_cons, widthStep_clear, List.append_assoc]
            have hfitclr : i < 2 ^ Dst1.codeLen := by
              rw [hF4]
              have := clear_end_fit i ic (widthStep i ic W vf) h1 (by omega) hW1
              omega
            have h0clr : 0 < Dst1.codeLen := by
              rw [hF4]
              have hle := le_writeLen i (widthStep i ic W vf)
              have hicl := hW1.2.1
              omega
            rw [show writeLen i (widthStep i ic W vf) = Dst1.codeLen from hF4.symm]
            rw [lzw_decode_loop_read i ic f2 Dst1 i _ hfitclr h0clr]
            rw [if_pos rfl]
            have hrec := hdec2 f2 pad (by simp at hf ⊢; omega)
            rw [hscanC] at hrec
            have hout2 : Dst2.out = Dst1.out := rfl
            have hfold :
                ({ table := decInitTable i, nextCode := i + 2, codeLen := ic,
                   prev := none, out := Dst1.out } : LZWDecState) = Dst2 := rfl
            rw [hfold, hrec, hout2, hF2, List.append_assoc, hm]

theorem codeBits_length_ge (i ic : Nat) (h1 : i = 2 ^ (ic - 1)) (h2 : 1 ≤ ic)
    (h3 : ic ≤ MAX_CODE_LEN) :
    ∀ (L : List Nat) (w : WState), WInv i ic w →
      L.length ≤ (codeBits i ic w L).length := by
  intro L
  induction L with
  | nil =>
    intro w _
    simp [codeBits_nil]
  | cons c cs ih =>
    intro w hw
    rw [codeBits_cons]
    have h1w : 1 ≤ writeLen i w := le_trans (le_trans h2 hw.2.1) (le_writeLen i w)
    have hrec := ih (widthStep i ic w c) (widthStep_WInv i ic h1 h2 h3 w c hw)
    simp only [List.length_cons, List.length_append, toBitsLSB_length]
    omega

/-- The decoder's very first read is the initial Clear Code, which leaves it
in its freshly initialised state. -/
theorem decode_clear_start (i ic : Nat) (h3 : 3 ≤ ic) (hi : i = 2 ^ (ic - 1))
    (f : Nat) (B : List Bool) :
    lzw_decode_loop i ic (f + 1)
      { table := decInitTable i, nextCode := i + 2, codeLen := ic,
        prev := none, out := [] }
      (toBitsLSB ic i ++ B) =
    lzw_decode_loop i ic f
      { table := decInitTable i, nextCode := i + 2, codeLen := ic,
        prev := none, out := [] } B := by
  have hfit : i < 2 ^ ic := by
    have hb : (2 : Nat) ^ ic = 2 * 2 ^ (ic - 1) := by
      rw [← Nat.pow_succ']
      congr 1
      omega
    have hpos : 1 ≤ (2 : Nat) ^ (ic - 1) := Nat.one_le_two_pow
    omega
  rw [show toBitsLSB ic i = toBitsLSB
    ({ table := decInitTable i, nextCode := i + 2, codeLen := ic,
       prev := none, out := [] } : LZWDecState).codeLen i from rfl]
  rw [lzw_decode_loop_read i ic f _ i B hfit (show (0:Nat) < ic by omega)]
  rw [if_pos rfl]

/-- Round trip of the full stream generator: packing the generated code
stream and chunking it yields raster data that a GIF-compliant decoder with
minimum code size `ic - 1` decodes back to the input symbols. -/
theorem lzw_stream_roundtrip (ic : Nat) (syms raster : List Nat)
    (h3 : 3 ≤ ic) (h12 : ic ≤ MAX_CODE_LEN)
    (hsym : ∀ s ∈ syms, s < 2 ^ (ic - 1))
    (henc : LZW_GenerateStream syms (2 ^ (ic - 1)) ic = .ok raster) :
    lzw_decode (ic - 1) raster = some syms := by
  set i := (2 : Nat) ^ (ic - 1) with hidef
  have h1' : i = 2 ^ (ic - 1) := hidef
  have hi4 : 4 ≤ i := by
    have hp : (2 : Nat) ^ 2 ≤ 2 ^ (ic - 1) := Nat.pow_le_pow_right (by omega) (by omega)
    have h4 : (2 : Nat) ^ 2 = 4 := by norm_num
    omega
  simp only [LZW_GenerateStream] at henc
  cases hgen : lzw_generate i syms with
  | error e =>
    rw [hgen] at henc
    cases henc
  | ok codes =>
    rw [hgen] at henc
    have hraster : raster = create_byte_list_block (create_byte_list codes i ic) := by
      cases henc
      rfl
    have hOKcodes : codesOK i ic (wInit i ic) codes :=
      lzw_generate_codesOK i ic h1' (by omega) h12 syms codes hgen
    obtain ⟨pad, hbits⟩ := create_byte_list_bits codes i ic h1' (by omega) h12 hOKcodes
    simp only [lzw_generate] at hgen
    split at hgen
    · cases hgen
    · rename_i stf hloop
      cases hgen
      have hInv0 : EncInv i ic
          (resetDict
            { pTreeInit := fun _ _ => 0, pTreeListMap := fun _ => 0,
              pTreeListSym := fun _ => 0, pTreeListChild := fun _ => 0,
              pTreeMap := fun _ _ => 0, pLZWData := [], dictPos := 0, mapPos := 0 }
            i) := by
        refine reset_preserves _ _ _ h1' (by omega) h12 trivial ?_
        show WInv i ic (wInit i ic)
        exact wInit_WInv _ _ h1' (by omega) h12
      set E0 : Nat → List Nat := fun c => if c < i then [c] else [] with hE0
      have hlit0 : ∀ c0, c0 < i → E0 c0 = [c0] := by
        intro c0 h
        rw [hE0]
        simp [h]
      have hTS0 : TrieSound i
          (resetDict
            { pTreeInit := fun _ _ => 0, pTreeListMap := fun _ => 0,
              pTreeListSym := fun _ => 0, pTreeListChild := fun _ => 0,
              pTreeMap := fun _ _ => 0, pLZWData := [], dictPos := 0, mapPos := 0 }
            i) E0 := resetDict_TrieSound i _ E0
      have hscan0 : scanW i ic (([] : List Nat) ++ [i]) = wInit i ic := by
        rw [List.nil_append]
        show widthStep i ic (wInit i ic) i = wInit i ic
        exact widthStep_clear i ic (wInit i ic)
      have hBS0 : BSync i ic
          (resetDict
            { pTreeInit := fun _ _ => 0, pTreeListMap := fun _ => 0,
              pTreeListSym := fun _ => 0, pTreeListChild := fun _ => 0,
              pTreeMap := fun _ _ => 0, pLZWData := [], dictPos := 0, mapPos := 0 }
            i) E0
          { table := decInitTable i, nextCode := i + 2, codeLen := ic,
            prev := none, out := [] } syms := by
        refine ⟨?_, ?_, ?_, ?_, ?_⟩
        · show ic = writeLen i (scanW i ic ([] ++ [i]))
          rw [hscan0, writeLen_wInit i ic (by omega)]
        · intro c0 hc0
          exact decInitTable_lt i c0 hc0
        · intro c0 hc1 hc2
          replace hc2 : c0 < i + 2 := hc2
          exact absurd hc1 (by omega)
        · show i + 2 = i + 1 + (scanW i ic ([] ++ [i])).dictPos
          rw [hscan0]
          rfl
        · show scanW i ic ([] ++ [i]) = wInit i ic ∧ (i + 2 : Nat) = i + 2
          exact ⟨hscan0, rfl⟩
      obtain ⟨Δ, hpre, hdec⟩ :=
        lzw_generate_loop_sim i ic h1' h3 h12 syms.length syms (Nat.le_refl _)
          _ E0 _ stf hsym hInv0 hTS0 hlit0 hBS0 hloop
      have hpre2 : stf.pLZWData = i :: Δ := by
        simpa using hpre
      have hcodes2 : stf.pLZWData ++ [i + 1] = i :: (Δ ++ [i + 1]) := by
        rw [hpre2]
        rfl
      rw [hraster]
      simp only [lzw_decode]
      rw [(deblock_block_spec (create_byte_list (stf.pLZWData ++ [i + 1]) i ic)).1]
      show lzw_decode_loop i (ic - 1 + 1)
        (((create_byte_list (stf.pLZWData ++ [i + 1]) i ic).map byteToBitsLSB).flatten.length + 1)
        { table := decInitTable i, nextCode := i + 2, codeLen := ic - 1 + 1,
          prev := none, out := [] }
        ((create_byte_list (stf.pLZWData ++ [i + 1]) i ic).map byteToBitsLSB).flatten =
        some syms
      rw [show ic - 1 + 1 = ic by omega]
      rw [hbits, hcodes2, codeBits_cons, widthStep_clear,
        writeLen_wInit i ic (by omega), List.append_assoc]
      have hfuel : Δ.length + 1 ≤
          (toBitsLSB ic i ++
            (codeBits i ic (wInit i ic) (Δ ++ [i + 1]) ++ pad)).length := by
        have hge := codeBits_length_ge i ic h1' (by omega) h12 (Δ ++ [i + 1])
          (wInit i ic) (wInit_WInv i ic h1' (by omega) h12)
        simp only [List.length_append, toBitsLSB_length, List.length_cons] at hge ⊢
        omega
      obtain ⟨f, hfeq⟩ : ∃ f, (toBitsLSB ic i ++
          (codeBits i ic (wInit i ic) (Δ ++ [i + 1]) ++ pad)).length + 1 = f + 1 :=
        ⟨_, rfl⟩
      rw [hfeq, decode_clear_start i ic h3 h1' f _]
      have hdec2 := hdec f pad (by omega)
      rw [show scanW i ic
          ((resetDict
            { pTreeInit := fun _ _ => 0, pTreeListMap := fun _ => 0,
              pTreeListSym := fun _ => 0, pTreeListChild := fun _ => 0,
              pTreeMap := fun _ _ => 0, pLZWData := [], dictPos := 0, mapPos := 0 }
            i).pLZWData) = wInit i ic from hscan0] at hdec2
      rw [hdec2]
      simp

/-- C1: round trip.  For every symbol sequence with values in
`[0, paletteSize)` (palette-derived `initDictLen = 2^(initCodeLen-1)`), a
GIF-compliant LZW decoder with minimum code size `initCodeLen - 1` decodes
the raster-data byte stream produced by the encoder back to the input: both
for the general `LZW_GenerateStream` entry with any admissible
`initCodeLen`, and for the public `lzw_encode` entry point (fixed 256-symbol
alphabet, minimum code size 8) on any byte string. -/
theorem C1_roundtrip :
    (∀ (initCodeLen : Nat) (syms raster : List Nat),
      3 ≤ initCodeLen → initCodeLen ≤ MAX_CODE_LEN →
      (∀ s ∈ syms, s < 2 ^ (initCodeLen - 1)) →
      LZW_GenerateStream syms (2 ^ (initCodeLen - 1)) initCodeLen = .ok raster →
      lzw_decode (initCodeLen - 1) raster = some syms) ∧
    (∀ data : List Nat, (∀ s ∈ data, s < 256) →
      lzw_decode 8 (lzw_encode data) = some data) := by
  constructor
  · intro ic syms raster h3 h12 hsym henc
    exact lzw_stream_roundtrip ic syms raster h3 h12 hsym henc
  · intro data hdata
    obtain ⟨st', hst⟩ := lzw_generate_loop_good 256 data.length data (Nat.le_refl _)
      (resetDict
        { pTreeInit := fun _ _ => 0, pTreeListMap := fun _ => 0,
          pTreeListSym := fun _ => 0, pTreeListChild := fun _ => 0,
          pTreeMap := fun _ _ => 0, pLZWData := [], dictPos := 0, mapPos := 0 }
        256) hdata
    have hgen : lzw_generate 256 data = .ok (st'.pLZWData ++ [256 + 1]) := by
      simp only [lzw_generate]
      rw [hst]
    have hstream : LZW_GenerateStream data 256 9 =
        .ok (create_byte_list_block
          (create_byte_list (st'.pLZWData ++ [256 + 1]) 256 9)) := by
      simp only [LZW_GenerateStream]
      rw [hgen]
    have h256 : (2 : Nat) ^ (calcInitCodeLen 256 - 1) = 256 := by decide
    have h9 : calcInitCodeLen 256 = 9 := by decide
    have hencode : lzw_encode data =
        create_byte_list_block (create_byte_list (st'.pLZWData ++ [256 + 1]) 256 9) := by
      simp only [lzw_encode]
      rw [h256, h9, hstream]
    rw [hencode]
    have hrt := lzw_stream_roundtrip 9 data
      (create_byte_list_block (create_byte_list (st'.pLZWData ++ [256 + 1]) 256 9))
      (by omega) (by decide) (fun s hs => hdata s hs) hstream
    exact hrt

/-- Witness for `C1_roundtrip`: the byte string `[0, 1, 2]` decodes back
from its encoding. -/
theorem C1_roundtrip_witness :
    (∀ s ∈ [0, 1, 2], s < 256) ∧
    lzw_decode 8 (lzw_encode [0, 1, 2]) = some [0, 1, 2] :=
  ⟨by decide, C1_roundtrip.2 [0, 1, 2] (by decide)⟩

end Gifenc
